import Mathlib

/-!
# CGHCertBot: a shallow embedding of `cghcertbot.go`

The Go program resolves the certificate expiry of a host over TLS, turns it
into a sentence, keeps a per-user list of hosts and prints sorted summaries.

Modelling conventions.

* `time.Time` is an instant: the number of nanoseconds since the zero time
  (January 1, year 1, 00:00:00 UTC), so `IsZero` is "equal to 0".
* `time.Duration` is an `int64` count of nanoseconds; `Time.Sub` saturates.
* Go strings are Lean strings; slices are lists.
* The network (`tls.DialWithDialer`) and the clock (`time.Now`) are
  parameters of the functions that use them; so are the URL parser of
  `sanitize`, the content that `read` loads, and the order in which the
  goroutines of `SummaryForUser` append their messages.
* `float64` values are rationals, and every `float64` operation is the exact
  operation followed by IEEE 754 rounding to nearest, ties to even, with a
  significand of 53 bits.
* `url.Parse` of the library `net/url` is embedded as `urlParse`, as far as it
  decides the error and the host.
* `map[int][]string` is a function from keys to optional lists; a map value is
  a reference, so the state holds map objects by reference.
-/

namespace CGHCertBot

/-! ## Time -/

/-- Go `time.Time`, as nanoseconds since the zero time. -/
structure Time where
  nsec : Int
  deriving DecidableEq, Repr

/-- The zero value of `time.Time`. -/
def Time.zero : Time := ⟨0⟩

/-- Go `Time.IsZero`. -/
def Time.IsZero (t : Time) : Bool := decide (t.nsec = 0)

/-- Go `Time.Before`: the instant `t` is strictly before `u`. -/
def Time.Before (t u : Time) : Bool := decide (t.nsec < u.nsec)

/-- Go `time.Duration`: nanoseconds. -/
abbrev Duration := Int

/-- Go `time.Hour`, in nanoseconds. -/
def Hour : Duration := 60 * 60 * 1000000000

/-- Largest `time.Duration` (`1<<63 - 1`). -/
def maxDuration : Duration := 2 ^ 63 - 1

/-- Smallest `time.Duration` (`-1 << 63`). -/
def minDuration : Duration := -(2 ^ 63)

/-- Go `Time.Sub`: the duration `t - u`, saturated to the `int64` range. -/
def Time.Sub (t u : Time) : Duration :=
  if t.nsec - u.nsec < minDuration then minDuration
  else if maxDuration < t.nsec - u.nsec then maxDuration
  else t.nsec - u.nsec

/-! ## Summary messages: `expiryMessage`, `Join`, `Sort` -/

/-- Go `expiryMessage`. -/
structure expiryMessage where
  Expiry : Time
  Message : String
  deriving DecidableEq, Repr

/-- Go `expiryMessages`. -/
abbrev expiryMessages := List expiryMessage

/-- The loop of `Join`: `msgs = append(msgs, eM.Message)` for each message. -/
def joinLoop : List String → expiryMessages → List String
  | msgs, [] => msgs
  | msgs, eM :: rest => joinLoop (msgs ++ [eM.Message]) rest

/-- Go `expiryMessages.Join`: `msgs := make([]string, len(eMs))` is a slice of
`len(eMs)` empty strings, the loop appends to it, `strings.Join` joins it. -/
def expiryMessages.Join (eMs : expiryMessages) (sep : String) : String :=
  sep.intercalate (joinLoop (List.replicate eMs.length "") eMs)

/-- The `less` function handed to `sort.SliceStable`. -/
def less (a b : expiryMessage) : Bool := a.Expiry.Before b.Expiry

/-- Stable insertion of `m` in front of a sorted list built from the entries
that followed `m`: `m` passes the entries that are `less` than it and stops
at the first one that is not. -/
def insertStable (m : expiryMessage) : expiryMessages → expiryMessages
  | [] => [m]
  | x :: xs => if less x m then x :: insertStable m xs else m :: x :: xs

/-- Go `expiryMessages.Sort`: `sort.SliceStable` with `less`. The library
sort is modelled as a stable insertion sort. -/
def expiryMessages.Sort (eMs : expiryMessages) : expiryMessages :=
  eMs.foldr insertStable []

/-! ## `check`: the earliest `NotAfter` of the verified chains -/

/-- Go `x509.Certificate`; `check` reads only `NotAfter`. -/
structure Certificate where
  NotAfter : Time
  deriving DecidableEq, Repr

/-- A Go `error` returned by the dial: whether its dynamic type implements
`net.Error`, what `Timeout()` answers, and the text of `Error()`. -/
structure NetErr where
  isNetError : Bool
  timeout : Bool
  text : String
  deriving DecidableEq, Repr

/-- Go `strings.Contains`. -/
def contains (s substr : String) : Bool :=
  s.data.tails.any (fun t => substr.data.isPrefixOf t)

/-- The body of the inner loop of `check`. -/
def scanCert (expire : Time) (cert : Certificate) : Time :=
  if expire.IsZero || cert.NotAfter.Before expire then cert.NotAfter else expire

/-- The two nested loops of `check` over `VerifiedChains`, `expire` starting
at the zero time. -/
def scanChains (chains : List (List Certificate)) : Time :=
  chains.foldl (fun expire chain => chain.foldl scanCert expire) Time.zero

/-- The TLS dial: an error, or the verified chains of the connection. -/
abbrev Dialer := String → Except NetErr (List (List Certificate))

/-- Go `check`: returns `(expire, err)`. -/
def check (dial : Dialer) (host : String) : Time × Option NetErr :=
  let host := if !contains host ":" then host ++ ":443" else host
  match dial host with
  | .error err => (Time.zero, some err)
  | .ok chains => (scanChains chains, none)

/-! ## The delete command pattern -/

/-- The regular expressions needed for `delCmd`. Alternation prefers its left
branch (leftmost-first matching of Go `regexp`). -/
inductive Regex where
  | bol
  | empty
  | char (c : Char)
  | seq (a b : Regex)
  | alt (a b : Regex)
  | starSpace
  deriving Repr

/-- The class `\s` of Go `regexp`: `[\t\n\f\r ]`. -/
def isSpace (c : Char) : Bool :=
  c = '\t' || c = '\n' || c = '\x0c' || c = '\r' || c = ' '

/-- A position in the text: the offset and the characters from there on. -/
abbrev Pos := Nat × List Char

/-- Greedy `\s*`: take one more space first, fall back to stopping here. -/
def runSpaces {α : Type} : Nat → List Char → (Pos → Option α) → Option α
  | p, [], k => k (p, [])
  | p, x :: xs, k =>
    if isSpace x then (runSpaces (p + 1) xs k).orElse (fun _ => k (p, x :: xs))
    else k (p, x :: xs)

/-- Backtracking matcher: run `re` at a position and hand the position after
it to the continuation; the first success in preference order wins. -/
def Regex.run {α : Type} : Regex → Pos → (Pos → Option α) → Option α
  | .bol, (p, s), k => if p = 0 then k (p, s) else none
  | .empty, st, k => k st
  | .char c, (p, s), k =>
    match s with
    | [] => none
    | x :: xs => if x = c then k (p + 1, xs) else none
  | .seq a b, st, k => a.run st (fun st' => b.run st' k)
  | .alt a b, st, k => (a.run st k).orElse (fun _ => b.run st k)
  | .starSpace, (p, s), k => runSpaces p s k

/-- The match of `re` that starts at the given position, if any: the position
after it. -/
def Regex.matchAt (re : Regex) (st : Pos) : Option Pos := re.run st some

/-- A literal string. -/
def Regex.lit : List Char → Regex
  | [] => .empty
  | c :: cs => .seq (.char c) (Regex.lit cs)

/-- Go `delCmd`: `^/(?:d(?:el(?:ete|)|)|r(?:em(?:ove|)|))\s*`. -/
def delCmd : Regex :=
  .seq .bol (.seq (.char '/') (.seq
    (.alt
      (.seq (.char 'd') (.alt (.seq (Regex.lit "el".data) (.alt (Regex.lit "ete".data) .empty)) .empty))
      (.seq (.char 'r') (.alt (.seq (Regex.lit "em".data) (.alt (Regex.lit "ove".data) .empty)) .empty)))
    .starSpace))

/-- Leftmost search: whether `re` matches at this offset or a later one. -/
def Regex.searchFrom (re : Regex) : Nat → List Char → Bool
  | p, [] => (re.matchAt (p, [])).isSome
  | p, x :: xs => (re.matchAt (p, x :: xs)).isSome || Regex.searchFrom re (p + 1) xs

/-- Go `Regexp.MatchString`. -/
def Regex.MatchString (re : Regex) (s : String) : Bool := re.searchFrom 0 s.data

/-- The loop of Go `Regexp.ReplaceAllString` for a replacement without `$`:
every leftmost non-overlapping match is replaced, the text between matches is
copied. After an empty match the search moves on by one character (`delCmd`
has no empty match: it starts with `/`). -/
def Regex.replaceFrom (re : Regex) (repl : List Char) : Nat → Nat → List Char → List Char
  | 0, _, s => s
  | fuel + 1, p, s =>
    match re.matchAt (p, s) with
    | some (q, rest) =>
      if p < q then repl ++ Regex.replaceFrom re repl fuel q rest
      else
        match s with
        | [] => repl
        | x :: xs => repl ++ x :: Regex.replaceFrom re repl fuel (p + 1) xs
    | none =>
      match s with
      | [] => []
      | x :: xs => x :: Regex.replaceFrom re repl fuel (p + 1) xs

/-- Go `Regexp.ReplaceAllString`, for a replacement without `$`. -/
def Regex.ReplaceAllString (re : Regex) (src repl : String) : String :=
  ⟨re.replaceFrom repl.data (src.length + 1) 0 src.data⟩

/-! ## `reply` -/

/-- Action constant. -/
def NOTHING : Int := 0
/-- Action constant. -/
def CREATE : Int := 1
/-- Action constant. -/
def READ : Int := 2
/-- Action constant. -/
def DELETE : Int := 3

/-- The text sent for `/start`. -/
def helpText : String :=
  "Give me website hostname and I'll tell you the expiry date of the certificates.\n\nIf I don't reply you within 5 seconds, that means I'm offline."

/-- A finite value of Go `float64`: the rational `num / den`. The values
that `reply` computes are finite and of normal size (between `2^-42` and `2^22`
in magnitude, or zero), so infinities, NaN, subnormal numbers and the sign of
zero are not represented. -/
structure Float64 where
  num : Int
  den : Nat
  deriving DecidableEq, Repr

/-- The loop of `floorLog2`: halve until the number is below 2. -/
def floorLog2Loop : Nat → Nat → Nat
  | 0, _ => 0
  | fuel + 1, n => if n < 2 then 0 else floorLog2Loop fuel (n / 2) + 1

/-- The position of the highest bit of `n`: the `k` with `2^k ≤ n < 2^(k+1)`,
for `n` not zero. -/
def floorLog2 (n : Nat) : Nat := floorLog2Loop n n

/-- The binary exponent of the positive rational `n / d`: the `e` with
`2^e ≤ n / d < 2^(e+1)`. -/
def exponentOf (n d : Nat) : Int :=
  let k : Int := (floorLog2 n : Int) - (floorLog2 d : Int)
  if d * 2 ^ k.toNat ≤ n * 2 ^ (-k).toNat then k else k - 1

/-- The integer nearest to `n / d`, the even one of two equally near. -/
def roundHalfEven (n d : Nat) : Nat :=
  if 2 * (n % d) < d then n / d
  else if d < 2 * (n % d) then n / d + 1
  else if (n / d) % 2 = 0 then n / d
  else n / d + 1

/-- IEEE 754 rounding of the non-negative rational `n / d` to binary64, to
nearest, ties to even: the value is scaled to a significand of 53 bits, the
significand is rounded to an integer, and the scale is taken back. -/
def roundMagnitude (n d : Nat) : Float64 :=
  if n = 0 then ⟨0, 1⟩
  else
    let s : Int := 52 - exponentOf n d
    let m := roundHalfEven (n * 2 ^ s.toNat) (d * 2 ^ (-s).toNat)
    ⟨(m * 2 ^ (-s).toNat : Nat), 2 ^ s.toNat⟩

/-- IEEE 754 rounding of the rational `n / d` to binary64; rounding is
symmetric in the sign. Every `float64` operation is the exact operation
followed by this rounding. -/
def Float64.round (n : Int) (d : Nat) : Float64 :=
  if n < 0 then ⟨-(roundMagnitude n.natAbs d).num, (roundMagnitude n.natAbs d).den⟩
  else roundMagnitude n.natAbs d

/-- Go conversion `float64(n)` of an integer, and a constant such as `24`. -/
def Float64.ofInt (n : Int) : Float64 := Float64.round n 1

/-- Go `x + y` on `float64`. -/
def Float64.add (x y : Float64) : Float64 :=
  Float64.round (x.num * y.den + y.num * x.den) (x.den * y.den)

/-- Go `x / y` on `float64`, for a divisor that is not zero. -/
def Float64.div (x y : Float64) : Float64 :=
  Float64.round (x.num * y.den * y.num.sign) (x.den * y.num.natAbs)

/-- The rational that a `float64` value holds. -/
def Float64.toRat (x : Float64) : ℚ := (x.num : ℚ) / (x.den : ℚ)

/-- The negated value. -/
def Float64.neg (x : Float64) : Float64 := ⟨-x.num, x.den⟩

/-- Go `Duration.Hours`: `float64(d / Hour) + float64(d % Hour) / (60*60*1e9)`,
with integer division truncating and the operations of `float64`. -/
def Duration.Hours (d : Duration) : Float64 :=
  Float64.add (Float64.ofInt (Int.tdiv d Hour))
    (Float64.div (Float64.ofInt (Int.tmod d Hour)) (Float64.ofInt (60 * 60 * 1000000000)))

/-- Go conversion `int(x)` of a floating-point value: the fraction is
discarded (truncation toward zero). -/
def truncate (x : Float64) : Int := Int.tdiv x.num x.den

/-- The day count of `reply`: `int(diff.Hours() / 24)`. -/
def daysOf (diff : Duration) : Int :=
  truncate (Float64.div (Duration.Hours diff) (Float64.ofInt 24))

/-- Verb `%d` of `fmt.Sprintf` for an `int`. -/
def fmtInt (n : Int) : String := toString n

/-- The `if` chain of `reply` that builds the message of a successful check. -/
def expiryText (input : String) (days : Int) : String :=
  if days > 1 then input ++ " will expire in " ++ fmtInt days ++ " days"
  else if days > 0 then input ++ " will expire tomorrow"
  else if days = 0 then input ++ " expires today"
  else if days = -1 then input ++ " expired yesterday"
  else input ++ " expired " ++ fmtInt (-1 * days) ++ " days ago"

/-- Go `reply`: returns `(output, expiry, action)`. The dial used by `check`
and the value of `time.Now()` are parameters. -/
def reply (dial : Dialer) (now : Time) (input : String) : String × Time × Int :=
  if input = "/start" then (helpText, Time.zero, NOTHING)
  else if input = "/list" then ("", Time.zero, READ)
  else if delCmd.MatchString input then (delCmd.ReplaceAllString input "", Time.zero, DELETE)
  else
    match check dial input with
    | (expiry, none) =>
      let diff := expiry.Sub now
      let days := daysOf diff
      (expiryText input days, expiry, CREATE)
    | (expiry, some err) =>
      if err.isNetError && err.timeout then ("Timed out connecting " ++ input, expiry, NOTHING)
      else if contains err.text "no such host" then ("No such host.", expiry, NOTHING)
      else if contains err.text "no route to host" then
        ("I don't understand what you typed.", expiry, NOTHING)
      else ("Something went wrong.", expiry, NOTHING)

/-! ## The host registry -/

/-- Go `hosts`, a `map[int][]string`: the list stored under each key, `none`
for a key that is not in the map. -/
abbrev hosts := Int → Option (List String)

/-- The empty map `hosts{}`. -/
def hosts.empty : hosts := fun _ => none

/-- Go `h[userId]`: the stored list, `nil` for a missing key. -/
def hosts.get (h : hosts) (userId : Int) : List String := (h userId).getD []

/-- Go `h[userId] = list`. -/
def hosts.set (h : hosts) (userId : Int) (list : List String) : hosts :=
  fun k => if k = userId then some list else h k

/-- A reference to a map object. -/
abbrev Ref := Nat

/-- Go `botdata`: its field `Hosts` holds a reference to a map. -/
structure Botdata where
  Hosts : Ref
  deriving DecidableEq, Repr

/-- The program state the registry methods work on: the map objects, and the
global `botdata`. -/
structure State where
  heap : Ref → hosts
  botdata : Botdata

/-- Overwrite the map object behind a reference. -/
def State.write (σ : State) (r : Ref) (m : hosts) : State :=
  { σ with heap := fun r' => if r' = r then m else σ.heap r' }

/-- The `range` loop of `Add`: whether it reaches `return`. -/
def containsHost : List String → String → Bool
  | [], _ => false
  | _h :: rest, host => if _h = host then true else containsHost rest host

/-- Go `hosts.Add` with receiver `h`: the loop reads `h[userId]`; the append
reads and writes `botdata.Hosts[userId]`. -/
def Add (σ : State) (h : Ref) (userId : Int) (host : String) : State :=
  if containsHost ((σ.heap h).get userId) host then σ
  else
    σ.write σ.botdata.Hosts
      ((σ.heap σ.botdata.Hosts).set userId ((σ.heap σ.botdata.Hosts).get userId ++ [host]))

/-- The loop of `Remove` on the map `m`, for the indices below the first
argument, downwards. An index out of range is a run-time panic: `none`. -/
def removeLoop (userId : Int) (host : String) : Nat → hosts → Option hosts
  | 0, m => some m
  | i + 1, m =>
    match (m.get userId)[i]? with
    | none => none
    | some x =>
      if x = host then
        removeLoop userId host i
          (m.set userId ((m.get userId).take i ++ (m.get userId).drop (i + 1)))
      else removeLoop userId host i m

/-- Go `hosts.Remove` with receiver `h`; `none` when the call panics. -/
def Remove (σ : State) (h : Ref) (userId : Int) (host : String) : Option State :=
  (removeLoop userId host ((σ.heap h).get userId).length (σ.heap h)).map (σ.write h)

/-! ## Predicates and example values used in the statements -/

/-- An entry whose resolution failed: `reply` returned the zero expiry. -/
def failed (m : expiryMessage) : Bool := m.Expiry.IsZero

/-- Every failed entry stands after every entry that is not failed: behind a
failed entry there are only failed entries. -/
def failedLast (l : expiryMessages) : Prop :=
  l.Pairwise (fun a b => failed a = true → failed b = true)

/-- No entry whose expiry is later than the zero time stands in front of a
failed entry. -/
def failedFirst (l : expiryMessages) : Prop :=
  l.Pairwise (fun a b => failed b = true → Time.zero.Before a.Expiry = false)

/-- The list is in non-decreasing order of `Expiry`. -/
def sortedByExpiry (l : expiryMessages) : Prop :=
  l.Pairwise (fun a b => less b a = false)

/-- An instant in the 2020s, as the current time of the examples. -/
def exNow : Time := ⟨63900000000000000000⟩

/-- Host A: its certificate expires 30 days after `exNow`. -/
def exA : expiryMessage := ⟨⟨exNow.nsec + 30 * 24 * Hour⟩, "a.example will expire in 30 days"⟩

/-- Host B: its certificate expired 36 hours before `exNow`. -/
def exB : expiryMessage := ⟨⟨exNow.nsec - 36 * Hour⟩, "b.example expired yesterday"⟩

/-- Host C: the name does not resolve, so the expiry is the zero time. -/
def exC : expiryMessage := ⟨Time.zero, "No such host."⟩

/-- The instant `t` is the minimum `NotAfter` over all certificates of all
chains: some certificate has it, and no certificate expires before it. -/
def isMinNotAfter (chains : List (List Certificate)) (t : Time) : Prop :=
  (∃ chain ∈ chains, ∃ cert ∈ chain, cert.NotAfter = t)
    ∧ ∀ chain ∈ chains, ∀ cert ∈ chain, cert.NotAfter.Before t = false

/-- The address `check` dials: port 443 is added when the host names none. -/
def dialAddress (host : String) : String :=
  if !contains host ":" then host ++ ":443" else host

/-- Two verified chains of the examples: leaf and intermediate, with a second
path through another intermediate. -/
def exChains : List (List Certificate) :=
  [[⟨⟨exNow.nsec + 90 * 24 * Hour⟩⟩, ⟨⟨exNow.nsec + 700 * 24 * Hour⟩⟩],
   [⟨⟨exNow.nsec + 90 * 24 * Hour⟩⟩, ⟨⟨exNow.nsec + 40 * 24 * Hour⟩⟩]]

/-- A dial that reaches every address and finds the chains `exChains`. -/
def exDial : Dialer := fun _ => .ok exChains

/-- State of the scan after the certificates `seen`: untouched, or the
minimum of what was seen. -/
def scanInv (seen : List Certificate) (e : Time) : Prop :=
  (seen = [] ∧ e = Time.zero)
    ∨ (e.nsec ≠ 0 ∧ (∃ c ∈ seen, c.NotAfter = e) ∧ ∀ c ∈ seen, e.nsec ≤ c.NotAfter.nsec)

/-- The time from `now` until `expiry`, in hours, as `reply` measures it (the
saturating `Sub`). -/
def hoursUntil (expiry now : Time) : ℚ := ((expiry.Sub now : Int) : ℚ) / 3600000000000

/-- The day count as the specification words it: `floor(h / 24)` for the
hours `h` until the expiry. -/
def floorDaysSpec (expiry now : Time) : Int := ⌊hoursUntil expiry now / 24⌋

/-- An expiry 12 hours before `exNow`. -/
def exTwelveHoursAgo : Time := ⟨exNow.nsec - 12 * Hour⟩

/-- An expiry 200 days less one nanosecond after `exNow`. -/
def exIn200Days : Time := ⟨exNow.nsec + 200 * 24 * Hour - 1⟩

/-- The registry of the program: the map that `botdata.Hosts` refers to. -/
def State.registry (σ : State) : hosts := σ.heap σ.botdata.Hosts

/-- No user's list holds the same hostname twice. -/
def noDuplicates (m : hosts) : Prop := ∀ userId, (m.get userId).Nodup

/-- A mutation of the registry as `main` performs it: `botdata.Hosts.Add` or
`botdata.Hosts.Remove`. -/
inductive Op where
  | add (userId : Int) (host : String)
  | remove (userId : Int) (host : String)
  deriving Repr

/-- One mutation; `none` when the call panics. -/
def applyOp (σ : State) : Op → Option State
  | .add userId host => some (Add σ σ.botdata.Hosts userId host)
  | .remove userId host => Remove σ σ.botdata.Hosts userId host

/-- A sequence of mutations, in order. -/
def runOps : List Op → State → Option State
  | [], σ => some σ
  | op :: ops, σ => (applyOp σ op).bind (runOps ops)

/-- The state after `read` found no file: `botdata.Hosts` is the empty map. -/
def State.initial : State := ⟨fun _ => hosts.empty, ⟨0⟩⟩

/-- A registry in which user 1 has the host `a` twice, as a loaded file may
have it. -/
def exDuplicated : State :=
  ⟨fun r => if r = 0 then hosts.empty.set 1 ["a", "b", "a", "c"] else hosts.empty, ⟨0⟩⟩

/-- A state with two maps: `botdata.Hosts` (reference 0) has `b.example` for
user 7, the other map (reference 1) has an empty list for user 7. -/
def exTwoMaps : State :=
  ⟨fun r => if r = 0 then hosts.empty.set 7 ["b.example"] else hosts.empty.set 7 [], ⟨0⟩⟩

/-- The accepted spellings of the delete command. -/
def delSpellings : List String := ["/d", "/del", "/delete", "/r", "/rem", "/remove"]

/-- Whether the text begins with a whitespace character. -/
def startsWithSpace (r : String) : Bool :=
  match r.data with
  | [] => false
  | x :: _ => isSpace x

/-! ## `sanitize`, `SummaryForUser` and the dispatcher of `main` -/

/-- Go `url.URL`; `sanitize` reads only `Host`. -/
structure URL where
  Host : String
  deriving DecidableEq, Repr

/-- The type of Go `url.Parse`: a URL, or an error. The parser is a parameter
of the functions that call it; `urlParse` is the one of the library. -/
abbrev UrlParser := String → Except String URL

/-- Go `strings.HasPrefix`. -/
def hasPrefix (s pre : String) : Bool := pre.data.isPrefixOf s.data

/-- Go `sanitize`. -/
def sanitize (parse : UrlParser) (input : String) : String :=
  if hasPrefix input "http" then
    match parse input with
    | .ok u => u.Host
    | .error _ => input
  else input

/-- The goroutine body of `SummaryForUser` for one host: the message that it
appends. -/
def hostMessage (dial : Dialer) (now : Time) (host : String) : expiryMessage :=
  ⟨(reply dial now host).2.1, (reply dial now host).1⟩

/-- The slice `messages` after `wg.Wait()`, when the goroutines appended in
the order `order` (each append taken as one step). -/
def collect (dial : Dialer) (now : Time) (order : List String) : expiryMessages :=
  order.map (hostMessage dial now)

/-- Go `hosts.SummaryForUser`. One goroutine is started per host of
`h[userId]`; `sched` is the order in which they append their messages. -/
def SummaryForUser (dial : Dialer) (now : Time) (sched : List String → List String)
    (h : hosts) (userId : Int) : String :=
  let messages := collect dial now (sched (h.get userId))
  if messages.length = 0 then "Nothing to show."
  else (expiryMessages.Sort messages).Join "\n"

/-- Go `read`: `botdata.Hosts` becomes a new map with the content loaded from
the file (the empty map when there is none); `fresh` is the reference of the
new map. -/
def read (σ : State) (fresh : Ref) (loaded : hosts) : State :=
  { heap := fun r => if r = fresh then loaded else σ.heap r, botdata := ⟨fresh⟩ }

/-- The goroutine that `main` starts for one message: `reply` on the
sanitized text, then the `switch` on the action. The result is the new state
and the text sent back; `none` when a call panics. Writing the file is not
part of the state; what `read` loads is the parameter `loaded`. -/
def handle (parse : UrlParser) (dial : Dialer) (now : Time)
    (sched : List String → List String) (fresh : Ref) (loaded : hosts)
    (σ : State) (userId : Int) (text : String) : Option (State × String) :=
  let input := sanitize parse text
  match reply dial now input with
  | (output, _, action) =>
    if action = CREATE then some (Add σ σ.botdata.Hosts userId input, output)
    else if action = READ then
      some (read σ fresh loaded,
        SummaryForUser dial now sched (read σ fresh loaded).registry userId)
    else if action = DELETE then
      (Remove σ σ.botdata.Hosts userId output).map
        (fun σ' => (σ', SummaryForUser dial now sched σ'.registry userId))
    else some (σ, output)

/-- The four failure classes of the message formatter. -/
inductive ErrorKind where
  | Timeout
  | NoSuchHost
  | NoRoute
  | Other
  deriving DecidableEq, Repr

/-- The class of an error, in the order in which `reply` tests: a network
timeout first, then the two texts. -/
def ErrorKind.of (err : NetErr) : ErrorKind :=
  if err.isNetError = true ∧ err.timeout = true then .Timeout
  else if contains err.text "no such host" = true then .NoSuchHost
  else if contains err.text "no route to host" = true then .NoRoute
  else .Other

/-- The text that the specification gives for each failure class. -/
def errorText (input : String) : ErrorKind → String
  | .Timeout => "Timed out connecting " ++ input
  | .NoSuchHost => "No such host."
  | .NoRoute => "I don't understand what you typed."
  | .Other => "Something went wrong."

/-- The text after the first `://`, if there is one. -/
def afterSchemeSeparator : List Char → Option (List Char)
  | [] => none
  | c :: cs =>
    if c = ':' ∧ cs.take 2 = ['/', '/'] then some (cs.drop 2) else afterSchemeSeparator cs

/-- A plain splitter for the examples: the text between `://` and the next
`/`, `?` or `#` is the host, as `url.Parse` finds it for a URL without
userinfo and escapes. -/
def exParse : UrlParser := fun s =>
  match afterSchemeSeparator s.data with
  | some rest => .ok ⟨⟨rest.takeWhile (fun c => c != '/' && c != '?' && c != '#')⟩⟩
  | none => .error "unsupported"

/-- A dial that fails for every address with the given error. -/
def dialFailing (err : NetErr) : Dialer := fun _ => .error err

/-- The identity schedule: the goroutines append in list order. -/
def inOrder : List String → List String := fun l => l

/-- Whether the text begins with `/d` or with `/r`. -/
def beginsWithCommandLetter (input : String) : Bool :=
  hasPrefix input "/d" || hasPrefix input "/r"

/-- The longest accepted spelling that the text begins with, if there is
one. -/
def longestSpelling (s : List Char) : Option String :=
  (delSpellings.filter (fun c => c.data.isPrefixOf s)).foldl
    (fun best c =>
      match best with
      | none => some c
      | some b => if b.length < c.length then some c else some b)
    none

/-- The text with the longest command spelling at its start and all the
whitespace that follows it removed. -/
def stripCommandSpec (input : String) : String :=
  match longestSpelling input.data with
  | some c => ⟨(input.data.drop c.length).dropWhile isSpace⟩
  | none => input

/-- Where greedy `\s*` ends: behind the leading whitespace. -/
def spacesEnd (st : Pos) : Pos :=
  (st.1 + (st.2.takeWhile isSpace).length, st.2.dropWhile isSpace)

/-- A regular expression that behaves as the literal `cs`. -/
def actsAsLit (re : Regex) (cs : List Char) : Prop :=
  ∀ (p : Nat) (s : List Char) (k : Pos → Option Pos),
    re.run (p, s) k = if cs.isPrefixOf s = true then k (p + cs.length, s.drop cs.length) else none

/-- A network error with timeout. -/
def exTimeoutErr : NetErr := ⟨true, true, "dial tcp 192.0.2.1:443: i/o timeout"⟩

/-- A failed name lookup: a `net.Error` without timeout. -/
def exDNSErr : NetErr := ⟨true, false, "dial tcp: lookup a.example: no such host"⟩

/-- A routing failure. -/
def exRouteErr : NetErr := ⟨true, false, "dial tcp 192.0.2.1:443: connect: no route to host"⟩

/-- A certificate that does not verify: not a `net.Error`. -/
def exCertErr : NetErr := ⟨false, false, "x509: certificate has expired or is not yet valid"⟩

/-- The entries with the expiry `t`, in the order of the list. -/
def withExpiry (t : Time) (l : expiryMessages) : expiryMessages :=
  l.filter (fun m => decide (m.Expiry = t))

/-- Two name lookups that failed differently: both carry the zero expiry. -/
def exFailedFirst : expiryMessage := ⟨Time.zero, "No such host."⟩

/-- The second failed entry of the example. -/
def exFailedSecond : expiryMessage := ⟨Time.zero, "Timed out connecting b.example"⟩

/-- A registry with two users. -/
def exTwoUsers : State :=
  ⟨fun _ => (hosts.empty.set 1 ["a.example", "b.example"]).set 2 ["c.example"], ⟨0⟩⟩

/-! ## `url.Parse` of the Go library `net/url`

The part of `url.Parse` (as in Go 1.12 to 1.22) that decides the error and the
field `Host`, which is all that `sanitize` reads. A byte that a `%XX` escape
of the host decodes to is kept as the character with that code. -/

/-- Go `strings.Cut(s, sep)` for a separator of one character. -/
def cut (sep : Char) (s : List Char) : List Char × List Char × Bool :=
  match s.span (fun c => c != sep) with
  | (before, []) => (before, [], false)
  | (before, _ :: after) => (before, after, true)

/-- A control byte, as `stringContainsCTLByte` tests: below space, or DEL. -/
def isCTL (c : Char) : Bool := c.toNat < 32 || c.toNat = 127

/-- Go `stringContainsCTLByte`. -/
def stringContainsCTLByte (s : List Char) : Bool := s.any isCTL

/-- The loop of `getScheme` at index `i`, the characters from `i` on being
`rest`. -/
def getSchemeLoop (rawURL : List Char) : Nat → List Char → Except String (List Char × List Char)
  | _, [] => .ok ([], rawURL)
  | i, c :: cs =>
    if c.isAlpha then getSchemeLoop rawURL (i + 1) cs
    else if c.isDigit || c = '+' || c = '-' || c = '.' then
      if i = 0 then .ok ([], rawURL) else getSchemeLoop rawURL (i + 1) cs
    else if c = ':' then
      if i = 0 then .error "missing protocol scheme" else .ok (rawURL.take i, cs)
    else .ok ([], rawURL)

/-- Go `getScheme`: the scheme and what follows the colon. -/
def getScheme (rawURL : List Char) : Except String (List Char × List Char) :=
  getSchemeLoop rawURL 0 rawURL

/-- The modes of `unescape` that `url.Parse` uses. -/
inductive Encoding where
  | encodePath
  | encodeHost
  | encodeZone
  | encodeUserPassword
  | encodeFragment
  deriving DecidableEq, Repr

/-- Go `ishex`. -/
def ishex (c : Char) : Bool :=
  ('0' ≤ c && c ≤ '9') || ('a' ≤ c && c ≤ 'f') || ('A' ≤ c && c ≤ 'F')

/-- Go `unhex`. -/
def unhex (c : Char) : Nat :=
  if '0' ≤ c ∧ c ≤ '9' then c.toNat - '0'.toNat
  else if 'a' ≤ c ∧ c ≤ 'f' then c.toNat - 'a'.toNat + 10
  else if 'A' ≤ c ∧ c ≤ 'F' then c.toNat - 'A'.toNat + 10
  else 0

/-- Go `shouldEscape(c, encodeHost)`: letters, digits, the sub-delimiters and
the marks may stand in a host; everything else must be escaped. -/
def shouldEscapeHost (c : Char) : Bool :=
  !(c.isAlphanum
    || "!$&'()*+,;=:[]<>\"".data.contains c
    || "-_.~".data.contains c)

/-- The first loop of Go `unescape`: whether every `%` starts a well-formed
escape that the mode allows, and, for a host, whether every ASCII character
may stand in a host. -/
def unescapeValid (mode : Encoding) : List Char → Bool
  | [] => true
  | '%' :: a :: b :: rest =>
    if !(ishex a && ishex b) then false
    else if mode = .encodeHost && unhex a < 8 && !(a = '2' && b = '5') then false
    else if mode = .encodeZone && !(a = '2' && b = '5')
        && !(unhex a * 16 + unhex b = 32)
        && shouldEscapeHost (Char.ofNat (unhex a * 16 + unhex b)) then false
    else unescapeValid mode rest
  | '%' :: _ => false
  | c :: rest =>
    if (mode = .encodeHost || mode = .encodeZone) && c.toNat < 128 && shouldEscapeHost c then false
    else unescapeValid mode rest

/-- The second loop of Go `unescape`: every escape replaced by its byte. -/
def unescapeDecode : List Char → List Char
  | [] => []
  | '%' :: a :: b :: rest => Char.ofNat (unhex a * 16 + unhex b) :: unescapeDecode rest
  | c :: rest => c :: unescapeDecode rest

/-- Go `unescape`, for the modes of `url.Parse`: an error, the text itself
when it has no escape, the decoded text otherwise. -/
def unescape (mode : Encoding) (s : List Char) : Except String (List Char) :=
  if !unescapeValid mode s then .error "invalid URL escape or host character"
  else if !s.contains '%' then .ok s
  else .ok (unescapeDecode s)

/-- Go `validOptionalPort`: empty, or a colon and digits. -/
def validOptionalPort : List Char → Bool
  | [] => true
  | c :: digits => c = ':' && digits.all (fun b => '0' ≤ b && b ≤ '9')

/-- Go `validUserinfo`. -/
def validUserinfo (s : List Char) : Bool :=
  s.all (fun r => r.isAlphanum || "-._:~!$&'()*+,;=%@".data.contains r)

/-- The loop of `lastIndexOf`. -/
def lastIndexLoop (c : Char) : Nat → List Char → Option Nat → Option Nat
  | _, [], found => found
  | i, x :: xs, found => lastIndexLoop c (i + 1) xs (if x = c then some i else found)

/-- Go `strings.LastIndex(s, c)` for one character; `none` for -1. -/
def lastIndexOf (c : Char) (s : List Char) : Option Nat := lastIndexLoop c 0 s none

/-- The loop of `indexOfText`. -/
def indexOfTextLoop (pat : List Char) : Nat → List Char → Option Nat
  | i, [] => if pat = [] then some i else none
  | i, x :: xs => if pat.isPrefixOf (x :: xs) then some i else indexOfTextLoop pat (i + 1) xs

/-- Go `strings.Index(s, pat)`; `none` for -1. -/
def indexOfText (pat s : List Char) : Option Nat := indexOfTextLoop pat 0 s

/-- Go `parseHost`. -/
def parseHost (host : List Char) : Except String (List Char) :=
  if ['['].isPrefixOf host then
    match lastIndexOf ']' host with
    | none => .error "missing ']' in host"
    | some i =>
      if !validOptionalPort (host.drop (i + 1)) then .error "invalid port after host"
      else
        match indexOfText ['%', '2', '5'] (host.take i) with
        | some zone =>
          match unescape .encodeHost (host.take zone) with
          | .error e => .error e
          | .ok host1 =>
            match unescape .encodeZone ((host.take i).drop zone) with
            | .error e => .error e
            | .ok host2 =>
              match unescape .encodeHost (host.drop i) with
              | .error e => .error e
              | .ok host3 => .ok (host1 ++ host2 ++ host3)
        | none => unescape .encodeHost host
  else
    match lastIndexOf ':' host with
    | some i =>
      if !validOptionalPort (host.drop i) then .error "invalid port after host"
      else unescape .encodeHost host
    | none => unescape .encodeHost host

/-- Go `parseAuthority`: the host, or an error; the user information is
checked and dropped. -/
def parseAuthority (authority : List Char) : Except String (List Char) :=
  match lastIndexOf '@' authority with
  | none => parseHost authority
  | some i =>
    match parseHost (authority.drop (i + 1)) with
    | .error e => .error e
    | .ok host =>
      let userinfo := authority.take i
      if !validUserinfo userinfo then .error "net/url: invalid userinfo"
      else if !userinfo.contains ':' then
        match unescape .encodeUserPassword userinfo with
        | .error e => .error e
        | .ok _ => .ok host
      else
        match unescape .encodeUserPassword (cut ':' userinfo).1 with
        | .error e => .error e
        | .ok _ =>
          match unescape .encodeUserPassword (cut ':' userinfo).2.1 with
          | .error e => .error e
          | .ok _ => .ok host

/-- The text in front of the query: without the final `?` when that is the
only one, otherwise up to the first `?`. -/
def beforeQuery (rest : List Char) : List Char :=
  if rest.getLast? = some '?' ∧ rest.count '?' = 1 then rest.dropLast
  else (cut '?' rest).1

/-- Go `parse(rawURL, false)`, up to the host. -/
def parseNoFragment (rawURL : List Char) : Except String (List Char) :=
  if stringContainsCTLByte rawURL then .error "net/url: invalid control character in URL"
  else if rawURL = ['*'] then .ok []
  else
    match getScheme rawURL with
    | .error e => .error e
    | .ok (scheme, afterScheme) =>
      let rest := beforeQuery afterScheme
      if ['/'].isPrefixOf rest = false ∧ scheme ≠ [] then .ok []
      else if ['/'].isPrefixOf rest = false ∧ (cut '/' rest).1.contains ':' = true then
        .error "first path segment in URL cannot contain colon"
      else if (scheme ≠ [] ∨ ['/', '/', '/'].isPrefixOf rest = false)
          ∧ ['/', '/'].isPrefixOf rest = true then
        match parseAuthority ((rest.drop 2).span (fun c => c != '/')).1 with
        | .error e => .error e
        | .ok host =>
          match unescape .encodePath ((rest.drop 2).span (fun c => c != '/')).2 with
          | .error e => .error e
          | .ok _ => .ok host
      else
        match unescape .encodePath rest with
        | .error e => .error e
        | .ok _ => .ok []

/-- Go `url.Parse`: the fragment is cut off and checked, the rest parsed. -/
def urlParse : UrlParser := fun rawURL =>
  match parseNoFragment (cut '#' rawURL.data).1 with
  | .error e => .error e
  | .ok host =>
    if (cut '#' rawURL.data).2.1 = [] then .ok ⟨⟨host⟩⟩
    else
      match unescape .encodeFragment (cut '#' rawURL.data).2.1 with
      | .error e => .error e
      | .ok _ => .ok ⟨⟨host⟩⟩

/-- A character of a bare hostname: a letter, a digit, `-` or `.`. -/
def isHostnameChar (c : Char) : Bool := c.isAlphanum || c = '-' || c = '.'

/-- A bare hostname: hostname characters only, so no port, user or escape. -/
def bareHostname (host : String) : Bool := host.data.all isHostnameChar

/-- A path that `url.Parse` accepts as the part between host and query: empty
or beginning with `/`, without `?`, `#` and control characters, every `%`
followed by two hexadecimal digits. -/
def plainPath (path : String) : Bool :=
  (path.data = [] || ['/'].isPrefixOf path.data)
    && path.data.all (fun c => c != '?' && c != '#' && !isCTL c)
    && unescapeValid .encodePath path.data

/-- A query part: empty, or `?` and characters other than `#` and control
characters. -/
def plainQuery (query : String) : Bool :=
  (query.data = [] || ['?'].isPrefixOf query.data)
    && query.data.all (fun c => c != '#' && !isCTL c)

/-! ## Lemmas: sorting -/

theorem mem_insertStable (m x : expiryMessage) (l : expiryMessages) :
    x ∈ insertStable m l ↔ x = m ∨ x ∈ l := by
  induction l with
  | nil => simp [insertStable]
  | cons y ys ih =>
    unfold insertStable
    split
    · simp only [List.mem_cons, ih]
      tauto
    · simp only [List.mem_cons]

theorem less_iff (a b : expiryMessage) : less a b = true ↔ a.Expiry.nsec < b.Expiry.nsec := by
  simp [less, Time.Before]

theorem less_false_iff (a b : expiryMessage) :
    less a b = false ↔ b.Expiry.nsec ≤ a.Expiry.nsec := by
  simp [less, Time.Before]

theorem sortedByExpiry_insertStable (m : expiryMessage) (l : expiryMessages)
    (h : sortedByExpiry l) : sortedByExpiry (insertStable m l) := by
  unfold sortedByExpiry at *
  induction l with
  | nil => simp [insertStable]
  | cons y ys ih =>
    rw [List.pairwise_cons] at h
    unfold insertStable
    split
    · rename_i hlt
      rw [List.pairwise_cons]
      refine ⟨?_, ih h.2⟩
      intro z hz
      rcases (mem_insertStable m z ys).1 hz with rfl | hz
      · rw [less_iff] at hlt
        rw [less_false_iff]
        omega
      · exact h.1 z hz
    · rename_i hlt
      have hym : m.Expiry.nsec ≤ y.Expiry.nsec := by
        rw [← less_false_iff]
        simpa using hlt
      rw [List.pairwise_cons, List.pairwise_cons]
      refine ⟨?_, h⟩
      intro z hz
      rcases List.mem_cons.1 hz with rfl | hz
      · rw [less_false_iff]
        exact hym
      · have := h.1 z hz
        rw [less_false_iff] at this ⊢
        omega

theorem sortedByExpiry_Sort (eMs : expiryMessages) : sortedByExpiry (expiryMessages.Sort eMs) := by
  induction eMs with
  | nil => simp [expiryMessages.Sort, sortedByExpiry]
  | cons m ms ih =>
    have : expiryMessages.Sort (m :: ms) = insertStable m (expiryMessages.Sort ms) := rfl
    rw [this]
    exact sortedByExpiry_insertStable m _ ih

/-! ## Lemmas: joining -/

theorem joinLoop_eq (msgs : List String) (eMs : expiryMessages) :
    joinLoop msgs eMs = msgs ++ eMs.map (fun eM => eM.Message) := by
  induction eMs generalizing msgs with
  | nil => simp [joinLoop]
  | cons m ms ih => simp [joinLoop, ih]

/-- What `Join` computes: the texts come after `len(eMs)` empty strings. -/
theorem Join_eq (eMs : expiryMessages) (sep : String) :
    expiryMessages.Join eMs sep
      = sep.intercalate (List.replicate eMs.length "" ++ eMs.map (fun eM => eM.Message)) := by
  simp [expiryMessages.Join, joinLoop_eq]

/-! ## Claims about the summary -/

/-- C1, as stated, fails: for hosts A (expires in 30 days), B (expired
yesterday) and C (resolution failed) `Sort` gives the order C, B, A; the failed
entry is first, not last. -/
theorem C1_failed_entry_sorts_first :
    expiryMessages.Sort [exA, exB, exC] = [exC, exB, exA]
      ∧ ¬ failedLast (expiryMessages.Sort [exA, exB, exC]) := by
  have h : expiryMessages.Sort [exA, exB, exC] = [exC, exB, exA] := by decide
  refine ⟨h, ?_⟩
  rw [h]
  intro hl
  unfold failedLast at hl
  rw [List.pairwise_cons] at hl
  have := hl.1 exB (by simp) (by decide)
  revert this
  decide

/-- C1, amended: in the order produced by `Sort`, every entry whose resolution
failed (zero `Expiry`) comes before every entry whose `Expiry` is later than
the zero time; no such entry stands in front of a failed one. -/
theorem C1_failed_entries_sort_before_later_expiries (eMs : expiryMessages) :
    failedFirst (expiryMessages.Sort eMs) := by
  have h := sortedByExpiry_Sort eMs
  unfold sortedByExpiry at h
  unfold failedFirst
  refine h.imp ?_
  intro a b hab hb
  rw [less_false_iff] at hab
  simp only [failed, Time.IsZero, decide_eq_true_eq] at hb
  simp only [Time.Before, Time.zero, decide_eq_false_iff_not, not_lt]
  omega

/-- C2 fails on the code: `Join` of the one-element list with text `a` and
separator newline is a newline followed by `a`, not `a`: the slice made with
`len(eMs)` empty strings puts one separator per message in front. -/
theorem C2_join_single_has_leading_separator :
    expiryMessages.Join [⟨Time.zero, "a"⟩] "\n" = "\na"
      ∧ expiryMessages.Join [⟨Time.zero, "a"⟩] "\n" ≠ "a"
      ∧ expiryMessages.Join [⟨Time.zero, "a"⟩, ⟨Time.zero, "b"⟩] ", " = ", , a, b" := by
  decide

/-! ## Lemmas: the scan of `check` -/

theorem scanInv_foldl (certs seen : List Certificate) (e : Time)
    (hnz : ∀ c ∈ certs, c.NotAfter.nsec ≠ 0) (h : scanInv seen e) :
    scanInv (seen ++ certs) (certs.foldl scanCert e) := by
  induction certs generalizing seen e with
  | nil => simpa using h
  | cons c cs ih =>
    have hc : c.NotAfter.nsec ≠ 0 := hnz c (by simp)
    have hcs : ∀ c' ∈ cs, c'.NotAfter.nsec ≠ 0 := fun c' hc' => hnz c' (by simp [hc'])
    have hstep : scanInv (seen ++ [c]) (scanCert e c) := by
      rcases h with ⟨hs, he⟩ | ⟨he, ⟨w, hw, hwe⟩, hmin⟩
      · subst hs he
        right
        simp [scanCert, Time.IsZero, Time.zero, hc]
      · right
        by_cases hlt : c.NotAfter.nsec < e.nsec
        · have : scanCert e c = c.NotAfter := by
            simp [scanCert, Time.Before, hlt]
          rw [this]
          refine ⟨hc, ⟨c, by simp, rfl⟩, ?_⟩
          intro d hd
          rcases List.mem_append.1 hd with hd | hd
          · have := hmin d hd
            omega
          · simp only [List.mem_singleton] at hd
            subst hd
            exact le_refl _
        · have : scanCert e c = e := by
            simp [scanCert, Time.Before, Time.IsZero, he, hlt]
          rw [this]
          refine ⟨he, ⟨w, by simp [hw], hwe⟩, ?_⟩
          intro d hd
          rcases List.mem_append.1 hd with hd | hd
          · exact hmin d hd
          · simp only [List.mem_singleton] at hd
            subst hd
            omega
    have := ih (seen ++ [c]) (scanCert e c) hcs hstep
    simpa using this

theorem scanChains_eq_foldl_flatten (chains : List (List Certificate)) :
    scanChains chains = chains.flatten.foldl scanCert Time.zero := by
  unfold scanChains
  rw [List.foldl_flatten]

theorem scanChains_isMin (chains : List (List Certificate))
    (hne : ∃ chain ∈ chains, ∃ cert, cert ∈ chain)
    (hver : ∀ chain ∈ chains, ∀ cert ∈ chain, cert.NotAfter.IsZero = false) :
    isMinNotAfter chains (scanChains chains) := by
  have hnz : ∀ c ∈ chains.flatten, c.NotAfter.nsec ≠ 0 := by
    intro c hc
    obtain ⟨l, hl, hcl⟩ := List.mem_flatten.1 hc
    simpa [Time.IsZero] using hver l hl c hcl
  have h := scanInv_foldl chains.flatten [] Time.zero hnz (Or.inl ⟨rfl, rfl⟩)
  rw [List.nil_append, ← scanChains_eq_foldl_flatten] at h
  rcases h with ⟨hempty, _⟩ | ⟨_, ⟨w, hw, hwe⟩, hmin⟩
  · obtain ⟨l, hl, c, hc⟩ := hne
    have : c ∈ chains.flatten := List.mem_flatten.2 ⟨l, hl, hc⟩
    rw [hempty] at this
    simp at this
  · obtain ⟨l, hl, hwl⟩ := List.mem_flatten.1 hw
    refine ⟨⟨l, hl, w, hwl, hwe⟩, ?_⟩
    intro l' hl' c hc
    have := hmin c (List.mem_flatten.2 ⟨l', hl', hc⟩)
    simp only [Time.Before, decide_eq_false_iff_not, not_lt]
    exact this

/-! ## Claims about `check` -/

/-- C3: when the dial succeeds with verified chains that hold at least one
certificate, `check` returns no error and the minimum `NotAfter` over all
certificates of all chains. The certificates of a verified chain were valid
when the handshake verified them, so none has the zero time as `NotAfter`. -/
theorem C3_check_returns_minimum_notAfter (dial : Dialer) (host : String)
    (chains : List (List Certificate))
    (hdial : dial (dialAddress host) = .ok chains)
    (hne : ∃ chain ∈ chains, ∃ cert, cert ∈ chain)
    (hver : ∀ chain ∈ chains, ∀ cert ∈ chain, cert.NotAfter.IsZero = false) :
    ∃ expire, check dial host = (expire, none) ∧ isMinNotAfter chains expire := by
  refine ⟨scanChains chains, ?_, scanChains_isMin chains hne hver⟩
  unfold check
  simp only [dialAddress] at hdial
  simp only [hdial]

/-- C3 at a concrete input: two chains sharing a leaf; the earliest `NotAfter`
is the one of the second chain's intermediate, 40 days after `exNow`. -/
theorem C3_check_returns_minimum_notAfter_witness :
    check exDial "a.example" = (⟨exNow.nsec + 40 * 24 * Hour⟩, none)
      ∧ ∃ expire, check exDial "a.example" = (expire, none)
          ∧ isMinNotAfter exChains expire :=
  ⟨by decide,
   C3_check_returns_minimum_notAfter exDial "a.example" exChains rfl
    ⟨_, List.mem_cons_self _ _, _, List.mem_cons_self _ _⟩
    (by decide)⟩

/-! ## Lemmas: the day count -/

theorem floorLog2Loop_spec (fuel n : Nat) (hn : n ≠ 0) (hf : n ≤ fuel) :
    2 ^ floorLog2Loop fuel n ≤ n ∧ n < 2 ^ (floorLog2Loop fuel n + 1) := by
  induction fuel generalizing n with
  | zero => omega
  | succ fuel ih =>
    unfold floorLog2Loop
    by_cases h2 : n < 2
    · rw [if_pos h2]
      simp only [pow_zero, zero_add, pow_one]
      omega
    · rw [if_neg h2]
      obtain ⟨h1, h3⟩ := ih (n / 2) (by omega) (by omega)
      rw [pow_succ, pow_succ]
      rw [pow_succ] at h3
      omega

theorem floorLog2_spec (n : Nat) (hn : n ≠ 0) :
    2 ^ floorLog2 n ≤ n ∧ n < 2 ^ (floorLog2 n + 1) :=
  floorLog2Loop_spec n n hn (le_refl n)

/-- A positive rational below `2^K` has its binary exponent below `K`. -/
theorem exponentOf_le (n d K : Nat) (hn : n ≠ 0) (hd : d ≠ 0) (h : n < d * 2 ^ K) :
    exponentOf n d ≤ (K : Int) - 1 := by
  obtain ⟨hn1, _⟩ := floorLog2_spec n hn
  obtain ⟨_, hd2⟩ := floorLog2_spec d hd
  have hk : (floorLog2 n : Int) - (floorLog2 d : Int) ≤ K := by
    have h1 : 2 ^ floorLog2 n < 2 ^ (floorLog2 d + 1 + K) := by
      calc 2 ^ floorLog2 n ≤ n := hn1
        _ < d * 2 ^ K := h
        _ ≤ 2 ^ (floorLog2 d + 1) * 2 ^ K := Nat.mul_le_mul_right _ (le_of_lt hd2)
        _ = 2 ^ (floorLog2 d + 1 + K) := (pow_add 2 _ _).symm
    have h2 : floorLog2 n < floorLog2 d + 1 + K := (Nat.pow_lt_pow_iff_right (by norm_num)).1 h1
    omega
  unfold exponentOf
  simp only
  split
  · rename_i hc
    by_contra hcon
    have hKk : (K : Int) ≤ (floorLog2 n : Int) - (floorLog2 d : Int) := by omega
    have hkK : (floorLog2 n : Int) - (floorLog2 d : Int) = K := le_antisymm hk hKk
    rw [hkK] at hc
    simp only [Int.toNat_ofNat, Int.toNat_neg_nat, pow_zero, mul_one] at hc
    omega
  · omega

theorem roundHalfEven_error (n d : Nat) (hd : 0 < d) :
    |((roundHalfEven n d : Nat) : ℚ) - (n : ℚ) / (d : ℚ)| ≤ 1 / 2 := by
  have hdq : (0 : ℚ) < (d : ℚ) := by exact_mod_cast hd
  have hn : (n : ℚ) = (d : ℚ) * ((n / d : Nat) : ℚ) + ((n % d : Nat) : ℚ) := by
    exact_mod_cast (Nat.div_add_mod n d).symm
  have hr : ((n % d : Nat) : ℚ) < (d : ℚ) := by exact_mod_cast Nat.mod_lt n hd
  have hr0 : (0 : ℚ) ≤ ((n % d : Nat) : ℚ) := by positivity
  have key : ∀ res : ℚ, -(d : ℚ) ≤ 2 * (res * d - n) → 2 * (res * d - n) ≤ d →
      |res - (n : ℚ) / (d : ℚ)| ≤ 1 / 2 := by
    intro res h1 h2
    have e : res - (n : ℚ) / (d : ℚ) = (res * d - n) / d := by
      field_simp
    rw [e, abs_le]
    constructor
    · rw [le_div_iff₀ hdq]
      linarith
    · rw [div_le_iff₀ hdq]
      linarith
  unfold roundHalfEven
  split
  · rename_i h
    have h' : (2 : ℚ) * ((n % d : Nat) : ℚ) < (d : ℚ) := by exact_mod_cast h
    apply key <;> rw [hn] <;> linarith
  · split
    · rename_i _ h
      have h' : (d : ℚ) < 2 * ((n % d : Nat) : ℚ) := by exact_mod_cast h
      apply key <;> rw [hn] <;> push_cast <;> linarith
    · rename_i h1 h2
      have h' : (2 : ℚ) * ((n % d : Nat) : ℚ) = (d : ℚ) := by
        have : 2 * (n % d) = d := by omega
        exact_mod_cast this
      split
      · apply key <;> rw [hn] <;> linarith
      · apply key <;> rw [hn] <;> push_cast <;> linarith

theorem roundHalfEven_exact (n d : Nat) (hd : 0 < d) (h : d ∣ n) :
    roundHalfEven n d = n / d := by
  unfold roundHalfEven
  rw [Nat.mod_eq_zero_of_dvd h]
  simp [hd]

/-- The shape of a rounded value of normal size: a significand over a power of
two that is at least `2^(53-K)` for a value below `2^K`. -/
theorem roundMagnitude_shape (n d K : Nat) (hn : n ≠ 0) (hd : d ≠ 0) (hK : K ≤ 53)
    (h : n < d * 2 ^ K) :
    ∃ S : Nat, 53 - K ≤ S
      ∧ roundMagnitude n d = ⟨((roundHalfEven (n * 2 ^ S) d : Nat) : Int), 2 ^ S⟩ := by
  have hE := exponentOf_le n d K hn hd h
  refine ⟨(52 - exponentOf n d).toNat, by omega, ?_⟩
  unfold roundMagnitude
  rw [if_neg hn]
  have hz : (-(52 - exponentOf n d)).toNat = 0 := by omega
  simp only [hz, pow_zero, mul_one]

theorem Float64.toRat_mk (a : Int) (b : Nat) : (Float64.mk a b).toRat = (a : ℚ) / (b : ℚ) := rfl

theorem roundMagnitude_error (n d K : Nat) (hd : d ≠ 0) (hK : K ≤ 53) (h : n < d * 2 ^ K) :
    0 < (roundMagnitude n d).den
      ∧ |(roundMagnitude n d).toRat - (n : ℚ) / (d : ℚ)| ≤ 1 / 2 ^ (54 - K) := by
  by_cases hn : n = 0
  · subst hn
    simp [roundMagnitude, Float64.toRat]
  · obtain ⟨S, hS, hshape⟩ := roundMagnitude_shape n d K hn hd hK h
    rw [hshape]
    refine ⟨by simp, ?_⟩
    have hdq : (0 : ℚ) < (d : ℚ) := by exact_mod_cast Nat.pos_of_ne_zero hd
    have hB := roundHalfEven_error (n * 2 ^ S) d (Nat.pos_of_ne_zero hd)
    have hpS : (0 : ℚ) < (2 : ℚ) ^ S := by positivity
    have e : (Float64.mk ((roundHalfEven (n * 2 ^ S) d : Nat) : Int) (2 ^ S)).toRat
        - (n : ℚ) / (d : ℚ)
        = (((roundHalfEven (n * 2 ^ S) d : Nat) : ℚ) - ((n * 2 ^ S : Nat) : ℚ) / (d : ℚ))
          / (2 : ℚ) ^ S := by
      rw [Float64.toRat_mk]
      push_cast
      field_simp
      ring
    rw [e, abs_div, abs_of_pos hpS, div_le_iff₀ hpS]
    have hpow : (2 : ℚ) ^ (54 - K) ≤ 2 * (2 : ℚ) ^ S := by
      have : 54 - K = (53 - K) + 1 := by omega
      rw [this, pow_succ, mul_comm]
      have : (2 : ℚ) ^ (53 - K) ≤ (2 : ℚ) ^ S := pow_le_pow_right₀ (by norm_num) hS
      linarith
    have hpK : (0 : ℚ) < (2 : ℚ) ^ (54 - K) := by positivity
    calc _ ≤ (1 : ℚ) / 2 := hB
      _ = 1 / (2 * (2 : ℚ) ^ S) * (2 : ℚ) ^ S := by field_simp
      _ ≤ 1 / (2 : ℚ) ^ (54 - K) * (2 : ℚ) ^ S := by
        apply mul_le_mul_of_nonneg_right _ (le_of_lt hpS)
        exact one_div_le_one_div_of_le hpK hpow

theorem roundMagnitude_exact (n d m : Nat) (hd : d ≠ 0) (hm : m < 2 ^ 53) (h : n = m * d) :
    0 < (roundMagnitude n d).den ∧ (roundMagnitude n d).toRat = (m : ℚ) := by
  by_cases hn : n = 0
  · have hm0 : m = 0 := by
      rw [hn] at h
      rcases Nat.mul_eq_zero.1 h.symm with h0 | h0
      · exact h0
      · exact absurd h0 hd
    subst hn hm0
    simp [roundMagnitude, Float64.toRat]
  · have hlt : n < d * 2 ^ 53 := by
      rw [h, Nat.mul_comm]
      exact Nat.mul_lt_mul_of_pos_left hm (Nat.pos_of_ne_zero hd)
    obtain ⟨S, _, hshape⟩ := roundMagnitude_shape n d 53 hn hd (le_refl _) hlt
    rw [hshape]
    refine ⟨by simp, ?_⟩
    have hdvd : d ∣ n * 2 ^ S := ⟨m * 2 ^ S, by rw [h]; ring⟩
    rw [roundHalfEven_exact _ _ (Nat.pos_of_ne_zero hd) hdvd, Float64.toRat_mk]
    have : n * 2 ^ S / d = m * 2 ^ S := by
      rw [h, Nat.mul_right_comm, Nat.mul_div_cancel _ (Nat.pos_of_ne_zero hd)]
    rw [this]
    push_cast
    field_simp

theorem round_den_toRat (n : Int) (d : Nat) :
    (Float64.round n d).den = (roundMagnitude n.natAbs d).den
      ∧ (Float64.round n d).toRat
          = (if n < 0 then -(roundMagnitude n.natAbs d).toRat
             else (roundMagnitude n.natAbs d).toRat) := by
  unfold Float64.round
  split
  · refine ⟨rfl, ?_⟩
    simp only [Float64.toRat]
    push_cast
    ring
  · exact ⟨rfl, rfl⟩

/-- One `float64` operation on a value below `2^K` in magnitude is off by at
most half a unit in the last place, `2^(K-54)`. -/
theorem round_error (n : Int) (d K : Nat) (hd : d ≠ 0) (hK : K ≤ 53)
    (h : |(n : ℚ) / (d : ℚ)| < (2 : ℚ) ^ K) :
    0 < (Float64.round n d).den
      ∧ |(Float64.round n d).toRat - (n : ℚ) / (d : ℚ)| ≤ 1 / 2 ^ (54 - K) := by
  have hdq : (0 : ℚ) < (d : ℚ) := by exact_mod_cast Nat.pos_of_ne_zero hd
  have habs : ((n.natAbs : Nat) : ℚ) = |(n : ℚ)| := by
    rw [Nat.cast_natAbs, Int.cast_abs]
  have hlt : n.natAbs < d * 2 ^ K := by
    rw [abs_div, abs_of_pos hdq, div_lt_iff₀ hdq, ← habs] at h
    have : ((n.natAbs : Nat) : ℚ) < ((d * 2 ^ K : Nat) : ℚ) := by
      push_cast
      linarith
    exact_mod_cast this
  obtain ⟨h1, h2⟩ := roundMagnitude_error n.natAbs d K hd hK hlt
  obtain ⟨e1, e2⟩ := round_den_toRat n d
  rw [e1, e2]
  refine ⟨h1, ?_⟩
  rw [habs] at h2
  split
  · rename_i hneg
    have hq : (n : ℚ) < 0 := by exact_mod_cast hneg
    rw [abs_of_neg hq] at h2
    have e : -(roundMagnitude n.natAbs d).toRat - (n : ℚ) / (d : ℚ)
        = -((roundMagnitude n.natAbs d).toRat - -(n : ℚ) / (d : ℚ)) := by ring
    rw [e, abs_neg]
    exact h2
  · rename_i hneg
    have hq : (0 : ℚ) ≤ (n : ℚ) := by exact_mod_cast not_lt.1 hneg
    rw [abs_of_nonneg hq] at h2
    exact h2

/-- A `float64` operation whose exact result is an integer below `2^53` in
magnitude returns that integer. -/
theorem round_exact (n m : Int) (d : Nat) (hd : d ≠ 0) (hm : m.natAbs < 2 ^ 53)
    (h : n = m * d) :
    0 < (Float64.round n d).den ∧ (Float64.round n d).toRat = (m : ℚ) := by
  have hnat : n.natAbs = m.natAbs * d := by
    rw [h, Int.natAbs_mul, Int.natAbs_ofNat]
  obtain ⟨h1, h2⟩ := roundMagnitude_exact n.natAbs d m.natAbs hd hm hnat
  obtain ⟨e1, e2⟩ := round_den_toRat n d
  rw [e1, e2]
  refine ⟨h1, ?_⟩
  rw [h2, Nat.cast_natAbs, Int.cast_abs]
  have hdpos : (0 : Int) < (d : Int) := by exact_mod_cast Nat.pos_of_ne_zero hd
  split
  · rename_i hneg
    have hmneg : m < 0 := by
      by_contra hc
      have : 0 ≤ m * (d : Int) := Int.mul_nonneg (not_lt.1 hc) (le_of_lt hdpos)
      omega
    have hq : (m : ℚ) < 0 := by exact_mod_cast hmneg
    rw [abs_of_neg hq]
    ring
  · rename_i hneg
    have hmnn : 0 ≤ m := by
      by_contra hc
      have : m * (d : Int) < 0 := Int.mul_neg_of_neg_of_pos (not_le.1 hc) hdpos
      omega
    have hq : (0 : ℚ) ≤ (m : ℚ) := by exact_mod_cast hmnn
    rw [abs_of_nonneg hq]

theorem ofInt_exact (m : Int) (hm : m.natAbs < 2 ^ 53) :
    0 < (Float64.ofInt m).den ∧ (Float64.ofInt m).toRat = (m : ℚ) :=
  round_exact m m 1 (by decide) hm (by simp)

theorem num_pos_of_toRat_pos (x : Float64) (hd : 0 < x.den) (h : 0 < x.toRat) : 0 < x.num := by
  have hdq : (0 : ℚ) < (x.den : ℚ) := by exact_mod_cast hd
  unfold Float64.toRat at h
  have : (0 : ℚ) < (x.num : ℚ) := by
    by_contra hc
    have hle : (x.num : ℚ) ≤ 0 := not_lt.1 hc
    have : (x.num : ℚ) / (x.den : ℚ) ≤ 0 := div_nonpos_of_nonpos_of_nonneg hle (le_of_lt hdq)
    linarith
  exact_mod_cast this

/-- The exact sum that `Float64.add` rounds. -/
theorem add_exact_value (x y : Float64) (hx : 0 < x.den) (hy : 0 < y.den) :
    ((x.num * y.den + y.num * x.den : Int) : ℚ) / ((x.den * y.den : Nat) : ℚ)
      = x.toRat + y.toRat := by
  have hxq : (x.den : ℚ) ≠ 0 := by exact_mod_cast (Nat.pos_iff_ne_zero.1 hx)
  have hyq : (y.den : ℚ) ≠ 0 := by exact_mod_cast (Nat.pos_iff_ne_zero.1 hy)
  unfold Float64.toRat
  push_cast
  field_simp

/-- The exact quotient that `Float64.div` rounds, for a positive divisor. -/
theorem div_exact_value (x y : Float64) (hx : 0 < x.den) (hy : 0 < y.den) (hyn : 0 < y.num) :
    ((x.num * y.den * y.num.sign : Int) : ℚ) / ((x.den * y.num.natAbs : Nat) : ℚ)
      = x.toRat / y.toRat := by
  have hxq : (x.den : ℚ) ≠ 0 := by exact_mod_cast (Nat.pos_iff_ne_zero.1 hx)
  have hyq : (y.den : ℚ) ≠ 0 := by exact_mod_cast (Nat.pos_iff_ne_zero.1 hy)
  have hynq : (y.num : ℚ) ≠ 0 := by exact_mod_cast (ne_of_gt hyn)
  have hs : y.num.sign = 1 := Int.sign_eq_one_of_pos hyn
  have ha : ((y.num.natAbs : Nat) : ℚ) = (y.num : ℚ) := by
    rw [Nat.cast_natAbs, Int.cast_abs, abs_of_pos]
    exact_mod_cast hyn
  unfold Float64.toRat
  rw [hs]
  push_cast
  rw [ha]
  field_simp

theorem den_ne_zero_add (x y : Float64) (hx : 0 < x.den) (hy : 0 < y.den) :
    x.den * y.den ≠ 0 := Nat.pos_iff_ne_zero.1 (Nat.mul_pos hx hy)

theorem den_ne_zero_div (x y : Float64) (hx : 0 < x.den) (hyn : 0 < y.num) :
    x.den * y.num.natAbs ≠ 0 :=
  Nat.pos_iff_ne_zero.1 (Nat.mul_pos hx (Int.natAbs_pos.2 (ne_of_gt hyn)))

theorem add_error (x y : Float64) (K : Nat) (hx : 0 < x.den) (hy : 0 < y.den) (hK : K ≤ 53)
    (h : |x.toRat + y.toRat| < (2 : ℚ) ^ K) :
    0 < (Float64.add x y).den
      ∧ |(Float64.add x y).toRat - (x.toRat + y.toRat)| ≤ 1 / 2 ^ (54 - K) := by
  have e := add_exact_value x y hx hy
  rw [← e] at h ⊢
  exact round_error _ _ K (den_ne_zero_add x y hx hy) hK h

theorem div_error (x y : Float64) (K : Nat) (hx : 0 < x.den) (hy : 0 < y.den) (hyn : 0 < y.num)
    (hK : K ≤ 53) (h : |x.toRat / y.toRat| < (2 : ℚ) ^ K) :
    0 < (Float64.div x y).den
      ∧ |(Float64.div x y).toRat - x.toRat / y.toRat| ≤ 1 / 2 ^ (54 - K) := by
  have e := div_exact_value x y hx hy hyn
  rw [← e] at h ⊢
  exact round_error _ _ K (den_ne_zero_div x y hx hyn) hK h

theorem eq_mul_of_div_eq (n m : Int) (d : Nat) (hd : d ≠ 0)
    (h : (n : ℚ) / (d : ℚ) = (m : ℚ)) : n = m * d := by
  have hdq : (d : ℚ) ≠ 0 := by exact_mod_cast hd
  rw [div_eq_iff hdq] at h
  exact_mod_cast h

theorem add_exact (x y : Float64) (m : Int) (hx : 0 < x.den) (hy : 0 < y.den)
    (hm : m.natAbs < 2 ^ 53) (h : x.toRat + y.toRat = (m : ℚ)) :
    0 < (Float64.add x y).den ∧ (Float64.add x y).toRat = (m : ℚ) := by
  have e := add_exact_value x y hx hy
  rw [← e] at h
  exact round_exact _ m _ (den_ne_zero_add x y hx hy) hm
    (eq_mul_of_div_eq _ _ _ (den_ne_zero_add x y hx hy) h)

theorem div_exact (x y : Float64) (m : Int) (hx : 0 < x.den) (hy : 0 < y.den)
    (hyn : 0 < y.num) (hm : m.natAbs < 2 ^ 53) (h : x.toRat / y.toRat = (m : ℚ)) :
    0 < (Float64.div x y).den ∧ (Float64.div x y).toRat = (m : ℚ) := by
  have e := div_exact_value x y hx hy hyn
  rw [← e] at h
  exact round_exact _ m _ (den_ne_zero_div x y hx hyn) hm
    (eq_mul_of_div_eq _ _ _ (den_ne_zero_div x y hx hyn) h)

/-- Truncation of a value between two consecutive integers, not negative. -/
theorem truncate_of_between (x : Float64) (q : Int) (hd : 0 < x.den) (hq : 0 ≤ q)
    (h1 : (q : ℚ) ≤ x.toRat) (h2 : x.toRat < (q : ℚ) + 1) : truncate x = q := by
  have hdq : (0 : ℚ) < (x.den : ℚ) := by exact_mod_cast hd
  have hdi : (0 : Int) < (x.den : Int) := by exact_mod_cast hd
  unfold Float64.toRat at h1 h2
  rw [le_div_iff₀ hdq] at h1
  rw [div_lt_iff₀ hdq] at h2
  have i1 : q * (x.den : Int) ≤ x.num := by exact_mod_cast h1
  have i2 : x.num < (q + 1) * (x.den : Int) := by exact_mod_cast h2
  have hnn : 0 ≤ x.num := le_trans (Int.mul_nonneg hq (le_of_lt hdi)) i1
  unfold truncate
  rw [Int.tdiv_eq_ediv hnn (le_of_lt hdi)]
  apply le_antisymm
  · have := Int.ediv_lt_of_lt_mul hdi i2
    omega
  · exact Int.le_ediv_of_mul_le hdi i1

theorem natAbs_lt_of_bounds (m : Int) (b : Nat) (h1 : -(b : Int) < m) (h2 : m < (b : Int)) :
    m.natAbs < b := by
  omega

/-- For a duration of at most 60 days that is not negative, the day count is
the number of whole days. -/
theorem daysOf_of_nonneg (d : Int) (h0 : 0 ≤ d) (hB : d ≤ 60 * (24 * Hour)) :
    daysOf d = d / (24 * Hour) := by
  have hH : Hour = 3600000000000 := rfl
  rw [hH] at hB ⊢
  have hn0 : 0 ≤ d % 3600000000000 := Int.emod_nonneg _ (by decide)
  have hn1 : d % 3600000000000 < 3600000000000 := Int.emod_lt_of_pos _ (by decide)
  have hh0 : 0 ≤ d / 3600000000000 := by omega
  have hh1 : d / 3600000000000 ≤ 1440 := by omega
  have hdq : (d : ℚ) = 3600000000000 * ((d / 3600000000000 : Int) : ℚ)
      + ((d % 3600000000000 : Int) : ℚ) := by
    exact_mod_cast (Int.ediv_add_emod d 3600000000000).symm
  unfold daysOf Duration.Hours
  rw [hH, Int.tdiv_eq_ediv h0 (by decide), Int.tmod_eq_emod h0 (by decide)]
  generalize hhdef : d / 3600000000000 = h at *
  generalize hndef : d % 3600000000000 = n at *
  have hnq0 : (0 : ℚ) ≤ (n : ℚ) := by exact_mod_cast hn0
  have hnq1 : (n : ℚ) < 3600000000000 := by exact_mod_cast hn1
  have hhq0 : (0 : ℚ) ≤ (h : ℚ) := by exact_mod_cast hh0
  have hhq1 : (h : ℚ) ≤ 1440 := by exact_mod_cast hh1
  obtain ⟨X0d, X0v⟩ := ofInt_exact h (natAbs_lt_of_bounds h _ (by omega) (by omega))
  obtain ⟨N0d, N0v⟩ := ofInt_exact n (natAbs_lt_of_bounds n _ (by omega) (by omega))
  obtain ⟨Cd, Cv⟩ := ofInt_exact (60 * 60 * 1000000000) (by decide)
  obtain ⟨Wd, Wv⟩ := ofInt_exact 24 (by decide)
  have Cn : 0 < (Float64.ofInt (60 * 60 * 1000000000)).num :=
    num_pos_of_toRat_pos _ Cd (by rw [Cv]; norm_num)
  have Wn : 0 < (Float64.ofInt 24).num := num_pos_of_toRat_pos _ Wd (by rw [Wv]; norm_num)
  have Cv' : (Float64.ofInt (60 * 60 * 1000000000)).toRat = 3600000000000 := by
    rw [Cv]
    norm_num
  have Wv' : (Float64.ofInt 24).toRat = 24 := by
    rw [Wv]
    norm_num
  -- the whole days and the rest
  have hr0 : 0 ≤ d % 86400000000000 := Int.emod_nonneg _ (by decide)
  have hr1 : d % 86400000000000 < 86400000000000 := Int.emod_lt_of_pos _ (by decide)
  have hq0 : 0 ≤ d / 86400000000000 := by omega
  have hq1 : d / 86400000000000 ≤ 60 := by omega
  have hdD : (d : ℚ) = 86400000000000 * ((d / 86400000000000 : Int) : ℚ)
      + ((d % 86400000000000 : Int) : ℚ) := by
    exact_mod_cast (Int.ediv_add_emod d 86400000000000).symm
  show truncate _ = d / 86400000000000
  by_cases hr : d % 86400000000000 = 0
  · -- a whole number of days: every operation is exact
    have hn : n = 0 := by omega
    have hh : h = 24 * (d / 86400000000000) := by omega
    obtain ⟨A1d, A1v⟩ := div_exact (Float64.ofInt n) (Float64.ofInt (60 * 60 * 1000000000)) 0
      N0d Cd Cn (by decide) (by rw [N0v, hn]; simp)
    obtain ⟨S1d, S1v⟩ := add_exact (Float64.ofInt h) _ h X0d A1d
      (natAbs_lt_of_bounds h _ (by omega) (by omega)) (by rw [X0v, A1v]; simp)
    obtain ⟨T1d, T1v⟩ := div_exact _ (Float64.ofInt 24) (d / 86400000000000) S1d Wd Wn
      (natAbs_lt_of_bounds _ _ (by omega) (by omega))
      (by rw [S1v, Wv', hh]; push_cast; field_simp)
    exact truncate_of_between _ _ T1d hq0 (by rw [T1v]) (by rw [T1v]; linarith)
  · -- otherwise the three rounding errors stay below one nanosecond in days
    have hr2 : 1 ≤ d % 86400000000000 := by omega
    have hr3 : d % 86400000000000 ≤ 86400000000000 - 1 := by omega
    have hrq2 : (1 : ℚ) ≤ ((d % 86400000000000 : Int) : ℚ) := by exact_mod_cast hr2
    have hrq3 : ((d % 86400000000000 : Int) : ℚ) ≤ 86400000000000 - 1 := by exact_mod_cast hr3
    obtain ⟨A1d, A1e⟩ := div_error (Float64.ofInt n) (Float64.ofInt (60 * 60 * 1000000000)) 0
      N0d Cd Cn (by decide) (by
        rw [N0v, Cv', abs_of_nonneg (div_nonneg hnq0 (by norm_num)), pow_zero,
          div_lt_one (by norm_num)]
        exact hnq1)
    rw [N0v, Cv'] at A1e
    rw [abs_le] at A1e
    have ha0 : (0 : ℚ) ≤ (n : ℚ) / 3600000000000 := div_nonneg hnq0 (by norm_num)
    have ha1 : (n : ℚ) / 3600000000000 < 1 := by
      rw [div_lt_one (by norm_num)]
      exact hnq1
    obtain ⟨S1d, S1e⟩ := add_error (Float64.ofInt h) _ 11 X0d A1d (by decide) (by
      rw [X0v, abs_lt]
      norm_num at A1e ⊢
      constructor <;> linarith [A1e.1, A1e.2])
    rw [X0v, abs_le] at S1e
    obtain ⟨T1d, T1e⟩ := div_error _ (Float64.ofInt 24) 6 S1d Wd Wn (by decide) (by
      rw [Wv', abs_lt]
      norm_num at A1e S1e ⊢
      constructor
      · rw [lt_div_iff₀ (by norm_num)]
        linarith [A1e.1, A1e.2, S1e.1, S1e.2]
      · rw [div_lt_iff₀ (by norm_num)]
        linarith [A1e.1, A1e.2, S1e.1, S1e.2])
    rw [Wv', abs_le] at T1e
    norm_num at A1e S1e T1e
    have hx : (d : ℚ) / 86400000000000
        = ((h : ℚ) + (n : ℚ) / 3600000000000) / 24 := by
      rw [hdq]
      field_simp
      ring
    have hxq : (d : ℚ) / 86400000000000
        = ((d / 86400000000000 : Int) : ℚ)
          + ((d % 86400000000000 : Int) : ℚ) / 86400000000000 := by
      rw [div_eq_iff (by norm_num)]
      have := hdD
      field_simp
      linarith
    have hlo : ((d / 86400000000000 : Int) : ℚ) + 1 / 86400000000000
        ≤ (d : ℚ) / 86400000000000 := by
      rw [hxq]
      have : (1 : ℚ) / 86400000000000
          ≤ ((d % 86400000000000 : Int) : ℚ) / 86400000000000 :=
        div_le_div_of_nonneg_right hrq2 (by norm_num)
      linarith
    have hhi : (d : ℚ) / 86400000000000
        ≤ ((d / 86400000000000 : Int) : ℚ) + 1 - 1 / 86400000000000 := by
      rw [hxq]
      have : ((d % 86400000000000 : Int) : ℚ) / 86400000000000
          ≤ (86400000000000 - 1) / 86400000000000 :=
        div_le_div_of_nonneg_right hrq3 (by norm_num)
      have e : ((86400000000000 : ℚ) - 1) / 86400000000000 = 1 - 1 / 86400000000000 := by
        norm_num
      linarith
    rw [hx] at hlo hhi
    apply truncate_of_between _ _ T1d hq0
    · linarith [A1e.1, A1e.2, S1e.1, S1e.2, T1e.1, T1e.2]
    · linarith [A1e.1, A1e.2, S1e.1, S1e.2, T1e.1, T1e.2]

theorem round_neg (n : Int) (d : Nat) :
    Float64.round (-n) d = (Float64.round n d).neg := by
  unfold Float64.round Float64.neg
  rcases lt_trichotomy n 0 with h | h | h
  · have h1 : ¬ (-n < 0) := by omega
    simp only [h, h1, if_true, if_false, Int.natAbs_neg, neg_neg]
  · subst h
    simp [roundMagnitude]
  · have h1 : -n < 0 := by omega
    have h2 : ¬ (n < 0) := by omega
    simp only [h1, h2, if_true, if_false, Int.natAbs_neg]

theorem ofInt_neg (n : Int) : Float64.ofInt (-n) = (Float64.ofInt n).neg := round_neg n 1

theorem add_neg_neg (x y : Float64) :
    Float64.add x.neg y.neg = (Float64.add x y).neg := by
  unfold Float64.add
  rw [← round_neg]
  simp only [Float64.neg]
  congr 1
  ring

theorem div_neg_left (x y : Float64) : Float64.div x.neg y = (Float64.div x y).neg := by
  unfold Float64.div
  rw [← round_neg]
  simp only [Float64.neg]
  congr 1
  ring

theorem truncate_neg (x : Float64) : truncate x.neg = -truncate x := by
  simp [truncate, Float64.neg]

theorem neg_tmod (a b : Int) : Int.tmod (-a) b = -Int.tmod a b := by
  rw [Int.tmod_def, Int.tmod_def, Int.neg_tdiv]
  ring

/-- The day count is odd in the duration. -/
theorem daysOf_neg (d : Duration) : daysOf (-d) = -daysOf d := by
  unfold daysOf Duration.Hours
  rw [Int.neg_tdiv, neg_tmod, ofInt_neg, ofInt_neg, div_neg_left, add_neg_neg, div_neg_left,
    truncate_neg]

/-- For a duration of at most 60 days in either direction the day count is the
quotient by 24 hours truncated toward zero. -/
theorem daysOf_eq_tdiv_of_le (d : Int) (h1 : -(60 * (24 * Hour)) ≤ d)
    (h2 : d ≤ 60 * (24 * Hour)) : daysOf d = Int.tdiv d (24 * Hour) := by
  rcases le_total 0 d with h0 | h0
  · rw [daysOf_of_nonneg d h0 h2, Int.tdiv_eq_ediv h0 (by decide)]
  · have hd : d = -(-d) := (neg_neg d).symm
    have h0' : (0 : Int) ≤ -d := Int.neg_nonneg_of_nonpos h0
    have h1' : -d ≤ 60 * (24 * Hour) := by
      have := Int.neg_le_neg h1
      rwa [neg_neg] at this
    rw [hd, daysOf_neg, Int.neg_tdiv, daysOf_of_nonneg (-d) h0' h1',
      Int.tdiv_eq_ediv h0' (by decide)]

theorem hoursUntil_div (expiry now : Time) :
    hoursUntil expiry now / 24 = ((expiry.Sub now : Int) : ℚ) / ((86400000000000 : Nat) : ℚ) := by
  unfold hoursUntil
  push_cast
  ring

theorem floorDaysSpec_eq_ediv (expiry now : Time) :
    floorDaysSpec expiry now = (expiry.Sub now) / (24 * Hour) := by
  unfold floorDaysSpec
  rw [hoursUntil_div, Rat.floor_intCast_div_natCast]
  norm_num [Hour]

/-- A successful check is answered with the text for its day count and the
action `CREATE`. -/
theorem reply_of_check_ok (dial : Dialer) (now : Time) (input : String) (expiry : Time)
    (hstart : input ≠ "/start") (hlist : input ≠ "/list")
    (hdel : delCmd.MatchString input = false) (hcheck : check dial input = (expiry, none)) :
    reply dial now input = (expiryText input (daysOf (expiry.Sub now)), expiry, CREATE) := by
  unfold reply
  simp [hstart, hlist, hdel, hcheck]

/-! ## Claims about the day count and the message -/

set_option maxRecDepth 100000 in
/-- C4, as stated, fails: for an expiry 12 hours in the past the day count of
`reply` is 0 and the text built from it is the one for today, while
`floor(h / 24)` is -1; and for an expiry 200 days less one nanosecond ahead
the day count is 200, while `floor(h / 24)` is 199. -/
theorem C4_twelve_hours_past_counts_as_today :
    daysOf (exTwelveHoursAgo.Sub exNow) = 0
      ∧ floorDaysSpec exTwelveHoursAgo exNow = -1
      ∧ daysOf (exTwelveHoursAgo.Sub exNow) ≠ floorDaysSpec exTwelveHoursAgo exNow
      ∧ expiryText "a.example" (daysOf (exTwelveHoursAgo.Sub exNow)) = "a.example expires today"
      ∧ daysOf (exIn200Days.Sub exNow) = 200
      ∧ floorDaysSpec exIn200Days exNow = 199 := by
  have hd : daysOf (exTwelveHoursAgo.Sub exNow) = 0 := by decide
  have hf : floorDaysSpec exTwelveHoursAgo exNow = -1 := by
    rw [floorDaysSpec_eq_ediv]
    decide
  have hf2 : floorDaysSpec exIn200Days exNow = 199 := by
    rw [floorDaysSpec_eq_ediv]
    decide
  refine ⟨hd, hf, ?_, ?_, by decide, hf2⟩
  · rw [hd, hf]
    decide
  · rw [hd]
    decide

/-- C4, amended: for an expiry at most 60 days from now in either direction,
the day count on which `reply` buckets its message is `h / 24` rounded toward
zero, `h` being the hours from now until the expiry: the quotient of the
duration by 24 hours truncated, which is `floor(h / 24)` when the expiry is
not before now and `ceil(h / 24)` when it is. -/
theorem C4_day_count_rounds_toward_zero (expiry now : Time)
    (hlo : -(60 * (24 * Hour)) ≤ expiry.Sub now) (hhi : expiry.Sub now ≤ 60 * (24 * Hour)) :
    daysOf (expiry.Sub now) = Int.tdiv (expiry.Sub now) (24 * Hour)
      ∧ daysOf (expiry.Sub now)
          = (if 0 ≤ expiry.Sub now then ⌊hoursUntil expiry now / 24⌋
             else ⌈hoursUntil expiry now / 24⌉) := by
  have key := daysOf_eq_tdiv_of_le (expiry.Sub now) hlo hhi
  refine ⟨key, ?_⟩
  rw [key, hoursUntil_div]
  split
  · rename_i h
    rw [Rat.floor_intCast_div_natCast, Int.tdiv_eq_ediv h (by decide)]
    norm_num [Hour]
  · rename_i h
    have hneg : (0 : Int) ≤ -(expiry.Sub now) :=
      Int.neg_nonneg_of_nonpos (le_of_lt (not_le.1 h))
    have e : ((expiry.Sub now : Int) : ℚ) / ((86400000000000 : Nat) : ℚ)
        = -((((-(expiry.Sub now) : Int)) : ℚ) / ((86400000000000 : Nat) : ℚ)) := by
      push_cast
      ring
    rw [e, Int.ceil_neg, Rat.floor_intCast_div_natCast, ← Int.tdiv_eq_ediv hneg (by decide),
      Int.neg_tdiv, neg_neg]
    norm_num [Hour]

/-- C4, amended, at the expiry 12 hours in the past: the day count is the
truncated quotient, 0, and `ceil(-12 / 24)`. -/
theorem C4_day_count_rounds_toward_zero_witness :
    daysOf (exTwelveHoursAgo.Sub exNow) = Int.tdiv (exTwelveHoursAgo.Sub exNow) (24 * Hour)
      ∧ daysOf (exTwelveHoursAgo.Sub exNow)
          = (if 0 ≤ exTwelveHoursAgo.Sub exNow then ⌊hoursUntil exTwelveHoursAgo exNow / 24⌋
             else ⌈hoursUntil exTwelveHoursAgo exNow / 24⌉) :=
  C4_day_count_rounds_toward_zero exTwelveHoursAgo exNow (by decide) (by decide)

/-- C5: the success message for host `host` and day count `d` is the "in d
days" text for `d > 1`, "tomorrow" for `d = 1`, "today" for `d = 0`,
"yesterday" for `d = -1` and "-d days ago" for `d < -1`; exactly one of the five
cases applies to each `d`; the texts at 2, 1, 0, -1 and -2 show the
transitions; and this is the text `reply` returns for a successful check. -/
theorem C5_success_message_by_day_count (host : String) (d : Int) :
    (1 < d → expiryText host d = host ++ " will expire in " ++ fmtInt d ++ " days")
      ∧ (d = 1 → expiryText host d = host ++ " will expire tomorrow")
      ∧ (d = 0 → expiryText host d = host ++ " expires today")
      ∧ (d = -1 → expiryText host d = host ++ " expired yesterday")
      ∧ (d < -1 → expiryText host d = host ++ " expired " ++ fmtInt (-d) ++ " days ago")
      ∧ ((1 < d ∧ d ≠ 1 ∧ d ≠ 0 ∧ d ≠ -1 ∧ ¬ d < -1)
          ∨ (¬ 1 < d ∧ d = 1 ∧ d ≠ 0 ∧ d ≠ -1 ∧ ¬ d < -1)
          ∨ (¬ 1 < d ∧ d ≠ 1 ∧ d = 0 ∧ d ≠ -1 ∧ ¬ d < -1)
          ∨ (¬ 1 < d ∧ d ≠ 1 ∧ d ≠ 0 ∧ d = -1 ∧ ¬ d < -1)
          ∨ (¬ 1 < d ∧ d ≠ 1 ∧ d ≠ 0 ∧ d ≠ -1 ∧ d < -1))
      ∧ (expiryText "a.example" 2 = "a.example will expire in 2 days"
          ∧ expiryText "a.example" 1 = "a.example will expire tomorrow"
          ∧ expiryText "a.example" 0 = "a.example expires today"
          ∧ expiryText "a.example" (-1) = "a.example expired yesterday"
          ∧ expiryText "a.example" (-2) = "a.example expired 2 days ago")
      ∧ (∀ (dial : Dialer) (now expiry : Time), host ≠ "/start" → host ≠ "/list" →
          delCmd.MatchString host = false → check dial host = (expiry, none) →
          (reply dial now host).1 = expiryText host (daysOf (expiry.Sub now))) := by
  refine ⟨?_, ?_, ?_, ?_, ?_, ?_, ?_, ?_⟩
  · intro h
    simp [expiryText, h]
  · intro h
    subst h
    simp [expiryText]
  · intro h
    subst h
    simp [expiryText]
  · intro h
    subst h
    simp [expiryText]
  · intro h
    have h1 : ¬ d > 1 := by omega
    have h2 : ¬ d > 0 := by omega
    have h3 : ¬ d = 0 := by omega
    have h4 : ¬ d = -1 := by omega
    simp only [expiryText, h1, h2, h3, h4, if_false]
    rw [show -1 * d = -d by ring]
  · omega
  · decide
  · intro dial now expiry h1 h2 h3 h4
    rw [reply_of_check_ok dial now host expiry h1 h2 h3 h4]

/-! ## Lemmas: the registry -/

theorem containsHost_iff (l : List String) (host : String) :
    containsHost l host = true ↔ host ∈ l := by
  induction l with
  | nil => simp [containsHost]
  | cons x xs ih =>
    unfold containsHost
    by_cases hx : x = host
    · simp [hx]
    · simp only [hx, if_false, ih, List.mem_cons]
      constructor
      · exact Or.inr
      · rintro (h | h)
        · exact absurd h.symm hx
        · exact h

@[simp] theorem get_set_same (m : hosts) (u : Int) (l : List String) : (m.set u l).get u = l := by
  simp [hosts.get, hosts.set]

theorem set_other (m : hosts) (u k : Int) (l : List String) (hk : k ≠ u) : (m.set u l) k = m k := by
  simp [hosts.set, hk]

theorem removeLoop_spec (userId : Int) (host : String) :
    ∀ (i : Nat) (m : hosts), i ≤ (m.get userId).length →
      ∃ m', removeLoop userId host i m = some m'
        ∧ m'.get userId = ((m.get userId).take i).filter (fun x => x ≠ host) ++ (m.get userId).drop i
        ∧ (∀ k, k ≠ userId → m' k = m k)
        ∧ ((m' userId).isSome = (m userId).isSome) := by
  intro i
  induction i with
  | zero =>
    intro m _
    exact ⟨m, rfl, by simp, fun _ _ => rfl, rfl⟩
  | succ i ih =>
    intro m hi
    have hlt : i < (m.get userId).length := by omega
    have hget : (m.get userId)[i]? = some ((m.get userId)[i]) := List.getElem?_eq_getElem hlt
    have htake : (m.get userId).take (i + 1) = (m.get userId).take i ++ [(m.get userId)[i]] := by
      rw [List.take_succ, hget]
      rfl
    have hdrop : (m.get userId).drop i = (m.get userId)[i] :: (m.get userId).drop (i + 1) :=
      List.drop_eq_getElem_cons hlt
    unfold removeLoop
    rw [hget]
    by_cases hx : (m.get userId)[i] = host
    · simp only [hx, if_true]
      have hlen : i ≤ ((m.set userId ((m.get userId).take i ++ (m.get userId).drop (i + 1))).get
          userId).length := by
        rw [get_set_same]
        simp
        omega
      obtain ⟨m', hm', hl, hk, hs⟩ := ih _ hlen
      refine ⟨m', hm', ?_, ?_, ?_⟩
      · rw [hl, get_set_same, htake, hx]
        have hti : (List.take i (m.get userId)).length = i := by
          rw [List.length_take]
          omega
        have h1 : (List.take i (m.get userId) ++ List.drop (i + 1) (m.get userId)).take i
            = List.take i (m.get userId) := by
          rw [List.take_append_of_le_length (le_of_eq hti.symm), List.take_take, Nat.min_self]
        have h2 : (List.take i (m.get userId) ++ List.drop (i + 1) (m.get userId)).drop i
            = List.drop (i + 1) (m.get userId) := by
          rw [List.drop_append_of_le_length (le_of_eq hti.symm),
            List.drop_eq_nil_of_le (le_of_eq hti), List.nil_append]
        rw [h1, h2, List.filter_append]
        simp
      · intro k hk'
        rw [hk k hk', set_other _ _ _ _ hk']
      · rw [hs]
        have := hlt
        simp only [hosts.set, if_true, Option.isSome_some]
        cases hm : m userId with
        | none => simp [hosts.get, hm] at this
        | some l => rfl
    · simp only [hx, if_false]
      obtain ⟨m', hm', hl, hk, hs⟩ := ih m (by omega)
      refine ⟨m', hm', ?_, hk, hs⟩
      rw [hl, htake, hdrop, List.filter_append]
      have hf : List.filter (fun x => decide (x ≠ host)) [(m.get userId)[i]] = [(m.get userId)[i]] := by
        simp [hx]
      rw [hf, List.append_assoc]
      rfl

@[simp] theorem write_heap_same (σ : State) (r : Ref) (m : hosts) : (σ.write r m).heap r = m := by
  simp [State.write]

@[simp] theorem write_botdata (σ : State) (r : Ref) (m : hosts) :
    (σ.write r m).botdata = σ.botdata := rfl

@[simp] theorem Add_botdata (σ : State) (h : Ref) (userId : Int) (host : String) :
    (Add σ h userId host).botdata = σ.botdata := by
  unfold Add
  split <;> rfl

/-- The call of `Add` on the registry itself: the host is appended when absent,
nothing changes when present. -/
theorem Add_registry (σ : State) (userId : Int) (host : String) :
    (Add σ σ.botdata.Hosts userId host).registry
      = if host ∈ σ.registry.get userId then σ.registry
        else σ.registry.set userId (σ.registry.get userId ++ [host]) := by
  unfold State.registry
  rw [Add_botdata]
  unfold Add
  by_cases hin : host ∈ (σ.heap σ.botdata.Hosts).get userId
  · simp [hin, (containsHost_iff _ _).2 hin]
  · have hc : containsHost ((σ.heap σ.botdata.Hosts).get userId) host = false := by
      rw [← Bool.not_eq_true, containsHost_iff]
      exact hin
    simp [hin, hc]

theorem Add_registry_get (σ : State) (userId : Int) (host : String) :
    (Add σ σ.botdata.Hosts userId host).registry.get userId
      = if host ∈ σ.registry.get userId then σ.registry.get userId
        else σ.registry.get userId ++ [host] := by
  rw [Add_registry]
  split
  · rfl
  · simp

/-- What `Remove` does to the receiver's map. -/
theorem Remove_spec (σ : State) (h : Ref) (userId : Int) (host : String) :
    ∃ σ', Remove σ h userId host = some σ'
      ∧ σ'.botdata = σ.botdata
      ∧ (σ'.heap h).get userId = ((σ.heap h).get userId).filter (fun x => x ≠ host)
      ∧ (∀ k, k ≠ userId → (σ'.heap h) k = (σ.heap h) k)
      ∧ ((σ'.heap h) userId).isSome = ((σ.heap h) userId).isSome := by
  obtain ⟨m', hm', hl, hk, hs⟩ :=
    removeLoop_spec userId host ((σ.heap h).get userId).length (σ.heap h) (le_refl _)
  refine ⟨σ.write h m', ?_, rfl, ?_, ?_, ?_⟩
  · simp [Remove, hm']
  · rw [write_heap_same, hl]
    simp
  · simpa using hk
  · simpa using hs

theorem noDuplicates_Add (σ : State) (userId : Int) (host : String)
    (h : noDuplicates σ.registry) :
    noDuplicates (Add σ σ.botdata.Hosts userId host).registry := by
  rw [Add_registry]
  split
  · exact h
  · rename_i hin
    intro v
    by_cases hv : v = userId
    · subst hv
      rw [get_set_same]
      exact List.Nodup.append (h v) (List.nodup_singleton host)
        (by simpa [List.disjoint_singleton] using hin)
    · have : (σ.registry.set userId (σ.registry.get userId ++ [host])).get v = σ.registry.get v := by
        simp [hosts.get, hosts.set, hv]
      rw [this]
      exact h v

theorem noDuplicates_Remove (σ : State) (userId : Int) (host : String)
    (h : noDuplicates σ.registry) :
    ∃ σ', Remove σ σ.botdata.Hosts userId host = some σ' ∧ noDuplicates σ'.registry := by
  obtain ⟨σ', hσ', hb, hl, hk, _⟩ := Remove_spec σ σ.botdata.Hosts userId host
  refine ⟨σ', hσ', ?_⟩
  unfold State.registry
  rw [hb]
  intro v
  by_cases hv : v = userId
  · subst hv
    rw [hl]
    exact (h v).filter _
  · have : (σ'.heap σ.botdata.Hosts).get v = (σ.heap σ.botdata.Hosts).get v := by
      simp [hosts.get, hk v hv]
    rw [this]
    exact h v

theorem noDuplicates_runOps (ops : List Op) :
    ∀ σ : State, noDuplicates σ.registry →
      ∃ σ', runOps ops σ = some σ' ∧ noDuplicates σ'.registry := by
  induction ops with
  | nil => exact fun σ h => ⟨σ, rfl, h⟩
  | cons op ops ih =>
    intro σ h
    cases op with
    | add userId host =>
      obtain ⟨σ', h1, h2⟩ := ih _ (noDuplicates_Add σ userId host h)
      exact ⟨σ', by simpa [runOps, applyOp] using h1, h2⟩
    | remove userId host =>
      obtain ⟨σ1, hr, hn⟩ := noDuplicates_Remove σ userId host h
      obtain ⟨σ', h1, h2⟩ := ih σ1 hn
      exact ⟨σ', by simpa [runOps, applyOp, hr] using h1, h2⟩

/-! ## Claims about the registry -/

/-- C6: `Remove(user, host)` on any map returns, and the user's list is then
the old list filtered by "not equal to host": every occurrence is gone, the
other entries keep their order, and an absent host leaves the list unchanged;
one call takes both occurrences of `a` out of `a, b, a, c`. -/
theorem C6_Remove_deletes_every_occurrence (σ : State) (h : Ref) (userId : Int)
    (host : String) :
    ∃ σ', Remove σ h userId host = some σ'
      ∧ (σ'.heap h).get userId = ((σ.heap h).get userId).filter (fun x => x ≠ host)
      ∧ host ∉ (σ'.heap h).get userId
      ∧ (host ∉ (σ.heap h).get userId → (σ'.heap h).get userId = (σ.heap h).get userId)
      ∧ (Remove exDuplicated 0 1 "a").map (fun τ => (τ.heap 0).get 1) = some ["b", "c"] := by
  obtain ⟨σ', hσ', _, hl, _, _⟩ := Remove_spec σ h userId host
  refine ⟨σ', hσ', hl, ?_, ?_, by decide⟩
  · rw [hl]
    simp
  · intro hnot
    rw [hl, List.filter_eq_self]
    intro x hx
    have : x ≠ host := fun e => hnot (e ▸ hx)
    simpa using this

/-- C7: `Add` on the registry is idempotent: a second `Add(u, h)` leaves the
state of the first unchanged; the list then holds `h` exactly once when it
held it at most once before; and the new list is the old one, or the old one
with `h` at the end, so earlier entries keep their order. -/
theorem C7_Add_idempotent (σ : State) (userId : Int) (host : String) :
    Add (Add σ σ.botdata.Hosts userId host) (Add σ σ.botdata.Hosts userId host).botdata.Hosts
        userId host
      = Add σ σ.botdata.Hosts userId host
      ∧ ((σ.registry.get userId).count host ≤ 1 →
          ((Add σ σ.botdata.Hosts userId host).registry.get userId).count host = 1)
      ∧ ((Add σ σ.botdata.Hosts userId host).registry.get userId = σ.registry.get userId
          ∨ (Add σ σ.botdata.Hosts userId host).registry.get userId
              = σ.registry.get userId ++ [host]) := by
  have hget := Add_registry_get σ userId host
  refine ⟨?_, ?_, ?_⟩
  · have hin : host ∈ (Add σ σ.botdata.Hosts userId host).registry.get userId := by
      rw [hget]
      split
      · assumption
      · simp
    generalize Add σ σ.botdata.Hosts userId host = σ1 at hin
    unfold State.registry at hin
    unfold Add
    rw [if_pos ((containsHost_iff _ _).2 hin)]
  · intro hle
    rw [hget]
    split
    · rename_i hin
      have := List.count_pos_iff.2 hin
      omega
    · rename_i hin
      rw [List.count_append, List.count_eq_zero_of_not_mem hin]
      simp
  · rw [hget]
    split
    · exact Or.inl rfl
    · exact Or.inr rfl

/-- C8 fails on the code: with a receiver that is not the map of
`botdata.Hosts`, `Add(7, b.example)` tests membership in the receiver's empty
list, leaves the receiver unchanged and appends to `botdata.Hosts`, whose list
already had the host and now has it twice. -/
theorem C8_Add_appends_to_botdata_not_receiver :
    ((Add exTwoMaps 1 7 "b.example").heap 1).get 7 = []
      ∧ ((Add exTwoMaps 1 7 "b.example").heap 0).get 7 = ["b.example", "b.example"]
      ∧ (exTwoMaps.heap 0).get 7 = ["b.example"] := by
  decide

/-- C9: the duplicate-free invariant of the registry is preserved by `Add`
and by `Remove`, and it holds after every sequence of `Add` and `Remove` calls
started from the empty registry (every such sequence runs to the end). -/
theorem C9_no_duplicates_invariant :
    (∀ (σ : State) (userId : Int) (host : String), noDuplicates σ.registry →
        noDuplicates (Add σ σ.botdata.Hosts userId host).registry)
      ∧ (∀ (σ : State) (userId : Int) (host : String), noDuplicates σ.registry →
        ∃ σ', Remove σ σ.botdata.Hosts userId host = some σ' ∧ noDuplicates σ'.registry)
      ∧ (∀ ops : List Op, ∃ σ', runOps ops State.initial = some σ' ∧ noDuplicates σ'.registry) := by
  refine ⟨noDuplicates_Add, noDuplicates_Remove, ?_⟩
  intro ops
  apply noDuplicates_runOps ops State.initial
  intro v
  simp [State.initial, State.registry, hosts.get, hosts.empty]

/-! ## Lemmas: the delete pattern -/

theorem runSpaces_run (w r : List Char) (p : Nat) (hws : ∀ x ∈ w, isSpace x = true)
    (hr : ∀ x, r.head? = some x → isSpace x = false) :
    runSpaces p (w ++ r) some = some (p + w.length, r) := by
  induction w generalizing p with
  | nil =>
    cases r with
    | nil => simp [runSpaces]
    | cons y ys =>
      have hy : isSpace y = false := hr y rfl
      simp [runSpaces, hy]
  | cons x xs ih =>
    have hx : isSpace x = true := hws x (by simp)
    have := ih (p + 1) (fun y hy => hws y (by simp [hy]))
    rw [List.cons_append, runSpaces, if_pos hx, this]
    simp only [Option.orElse, List.length_cons]
    rw [show p + 1 + xs.length = p + (xs.length + 1) by omega]

theorem space_ne_letters (x : Char) (hx : isSpace x = true) : x ≠ 'e' ∧ x ≠ 'o' := by
  constructor <;> (rintro rfl; revert hx; decide)

theorem delCmd_not_at_later_offset (p : Nat) (s : List Char) (hp : 0 < p) :
    delCmd.matchAt (p, s) = none := by
  have : p ≠ 0 := by omega
  simp [delCmd, Regex.matchAt, Regex.run, this]

theorem replaceFrom_later (fuel p : Nat) (s : List Char) (hp : 0 < p) :
    delCmd.replaceFrom [] fuel p s = s := by
  induction fuel generalizing p s with
  | zero => rfl
  | succ n ih =>
    unfold Regex.replaceFrom
    rw [delCmd_not_at_later_offset p s hp]
    cases s with
    | nil => rfl
    | cons x xs => simp [ih (p + 1) xs (by omega)]

theorem delCmd_matchAt_spelling (c : String) (w r : List Char) (hc : c ∈ delSpellings)
    (hw : w ≠ []) (hws : ∀ x ∈ w, isSpace x = true)
    (hr : ∀ x, r.head? = some x → isSpace x = false) :
    delCmd.matchAt (0, c.data ++ w ++ r) = some (c.length + w.length, r) := by
  cases w with
  | nil => exact absurd rfl hw
  | cons x xs =>
    have hx : isSpace x = true := hws x (by simp)
    obtain ⟨hxe, hxo⟩ := space_ne_letters x hx
    have hsp : ∀ p, runSpaces p (x :: (xs ++ r)) some = some (p + (x :: xs).length, r) :=
      fun p => runSpaces_run (x :: xs) r p hws hr
    have e1 : "el".data = ['e', 'l'] := rfl
    have e2 : "ete".data = ['e', 't', 'e'] := rfl
    have e3 : "em".data = ['e', 'm'] := rfl
    have e4 : "ove".data = ['o', 'v', 'e'] := rfl
    simp only [delSpellings, List.mem_cons, List.mem_singleton, List.not_mem_nil, or_false] at hc
    rcases hc with rfl | rfl | rfl | rfl | rfl | rfl <;>
      simp [delCmd, Regex.matchAt, Regex.run, Regex.lit, e1, e2, e3, e4, hxe, hxo, hsp,
        Option.orElse, String.length]

theorem startsWithSpace_false (r : String) (h : startsWithSpace r = false) :
    ∀ x, r.data.head? = some x → isSpace x = false := by
  intro x hx
  unfold startsWithSpace at h
  cases hd : r.data with
  | nil => simp [hd] at hx
  | cons y ys =>
    rw [hd] at h hx
    simp only [List.head?_cons, Option.some.injEq] at hx
    subst hx
    exact h

/-- The pattern matches a spelling followed by whitespace at offset 0 and
consumes the spelling and all of the whitespace. -/
theorem delCmd_matchAt_command (c w r : String) (hc : c ∈ delSpellings) (hw : w.data ≠ [])
    (hws : ∀ x ∈ w.data, isSpace x = true) (hr : startsWithSpace r = false) :
    delCmd.matchAt (0, (c ++ w ++ r).data) = some (c.length + w.data.length, r.data) := by
  rw [String.data_append, String.data_append]
  exact delCmd_matchAt_spelling c w.data r.data hc hw hws (startsWithSpace_false r hr)

theorem MatchString_of_matchAt (s : String) (q : Pos) (h : delCmd.matchAt (0, s.data) = some q) :
    delCmd.MatchString s = true := by
  unfold Regex.MatchString
  cases hd : s.data with
  | nil =>
    rw [hd] at h
    simp [Regex.searchFrom, h]
  | cons x xs =>
    rw [hd] at h
    simp [Regex.searchFrom, h]

theorem ReplaceAllString_of_matchAt (s : String) (q : Nat) (rest : List Char) (hq : 0 < q)
    (h : delCmd.matchAt (0, s.data) = some (q, rest)) :
    delCmd.ReplaceAllString s "" = ⟨rest⟩ := by
  unfold Regex.ReplaceAllString Regex.replaceFrom
  rw [h]
  simp only [hq, if_true]
  rw [replaceFrom_later _ _ _ hq]
  rfl

/-! ## Claims about the delete command -/

/-- C10: for an accepted delete spelling `c`, a non-empty run of whitespace `w`
and a remainder `r` that does not begin with whitespace, `reply (c ++ w ++ r)`
is the action `DELETE` with output exactly `r` and the zero expiry, whatever
the dial would answer and whatever the time is: no resolution enters the
result. -/
theorem C10_delete_command_strips_spelling_and_whitespace (dial : Dialer) (now : Time)
    (c w r : String) (hc : c ∈ delSpellings) (hw : w.data ≠ [])
    (hws : ∀ x ∈ w.data, isSpace x = true) (hr : startsWithSpace r = false) :
    reply dial now (c ++ w ++ r) = (r, Time.zero, DELETE) := by
  have hm := delCmd_matchAt_command c w r hc hw hws hr
  have hq : 0 < c.length + w.data.length := by
    have : 0 < w.data.length := List.length_pos.2 hw
    omega
  have hstart : c ++ w ++ r ≠ "/start" := by
    intro e
    rw [e] at hm
    have hn : delCmd.matchAt (0, "/start".data) = none := by decide
    rw [hn] at hm
    exact Option.noConfusion hm
  have hlist : c ++ w ++ r ≠ "/list" := by
    intro e
    rw [e] at hm
    have hn : delCmd.matchAt (0, "/list".data) = none := by decide
    rw [hn] at hm
    exact Option.noConfusion hm
  unfold reply
  rw [if_neg hstart, if_neg hlist, if_pos (MatchString_of_matchAt _ _ hm),
    ReplaceAllString_of_matchAt _ _ _ hq hm]

/-- C10 at the inputs of the specification: the three texts give `DELETE` with
`example.com`, here with a dial that would succeed. -/
theorem C10_delete_command_strips_spelling_and_whitespace_witness :
    reply exDial exNow "/delete example.com" = ("example.com", Time.zero, DELETE)
      ∧ reply exDial exNow "/d example.com" = ("example.com", Time.zero, DELETE)
      ∧ reply exDial exNow "/remove  example.com" = ("example.com", Time.zero, DELETE) :=
  ⟨C10_delete_command_strips_spelling_and_whitespace exDial exNow "/delete" " " "example.com"
      (by decide) (by decide) (by decide) (by decide),
   C10_delete_command_strips_spelling_and_whitespace exDial exNow "/d" " " "example.com"
      (by decide) (by decide) (by decide) (by decide),
   C10_delete_command_strips_spelling_and_whitespace exDial exNow "/remove" "  " "example.com"
      (by decide) (by decide) (by decide) (by decide)⟩

/-! ## Lemmas: what the delete pattern matches -/

theorem runSpaces_some (s : List Char) (p : Nat) :
    runSpaces p s some = some (spacesEnd (p, s)) := by
  induction s generalizing p with
  | nil => simp [runSpaces, spacesEnd]
  | cons x xs ih =>
    by_cases hx : isSpace x = true
    · rw [runSpaces, if_pos hx, ih]
      simp only [Option.orElse, spacesEnd, List.takeWhile_cons, hx, if_true, List.length_cons,
        List.dropWhile_cons]
      rw [show p + 1 + (List.takeWhile isSpace xs).length
        = p + ((List.takeWhile isSpace xs).length + 1) by omega]
    · rw [runSpaces, if_neg hx]
      simp [spacesEnd, List.takeWhile_cons, List.dropWhile_cons, hx]

theorem run_lit {α : Type} (cs s : List Char) (p : Nat) (k : Pos → Option α) :
    (Regex.lit cs).run (p, s) k
      = if cs.isPrefixOf s = true then k (p + cs.length, s.drop cs.length) else none := by
  induction cs generalizing s p with
  | nil => simp [Regex.lit, Regex.run]
  | cons c cs ih =>
    cases s with
    | nil => simp [Regex.lit, Regex.run, List.isPrefixOf]
    | cons x xs =>
      by_cases hx : x = c
      · subst hx
        simp only [Regex.lit, Regex.run, if_true, ih, List.isPrefixOf, beq_self_eq_true,
          Bool.true_and, List.length_cons, List.drop_succ_cons]
        rw [show p + 1 + cs.length = p + (cs.length + 1) by omega]
      · have hb : (c == x) = false := by
          simp only [beq_eq_false_iff_ne, ne_eq]
          exact fun e => hx e.symm
        simp [Regex.lit, Regex.run, hx, List.isPrefixOf, hb]

theorem command_shape_d (l1 l2 rr : Regex) (a b t : List Char)
    (h1 : actsAsLit l1 a) (h2 : actsAsLit l2 b) :
    (Regex.seq .bol (.seq (.char '/') (.seq
      (.alt (.seq (.char 'd') (.alt (.seq l1 (.alt l2 .empty)) .empty)) rr)
      .starSpace))).matchAt (0, '/' :: 'd' :: t)
      = some (if a.isPrefixOf t = true then
          (if b.isPrefixOf (t.drop a.length) = true then
            spacesEnd (2 + a.length + b.length, (t.drop a.length).drop b.length)
           else spacesEnd (2 + a.length, t.drop a.length))
        else spacesEnd (2, t)) := by
  simp only [Regex.matchAt, Regex.run, if_true, h1 _ _ _, h2 _ _ _, runSpaces_some]
  by_cases c1 : a.isPrefixOf t = true
  · by_cases c2 : b.isPrefixOf (t.drop a.length) = true
    · simp [c1, c2, Option.orElse]
    · simp [c1, c2, Option.orElse]
  · simp [c1, Option.orElse]

theorem command_shape_r (l1 l2 dd : Regex) (a b t : List Char)
    (h1 : actsAsLit l1 a) (h2 : actsAsLit l2 b)
    (hd : ∀ k : Pos → Option Pos, dd.run (1, 'r' :: t) k = none) :
    (Regex.seq .bol (.seq (.char '/') (.seq
      (.alt dd (.seq (.char 'r') (.alt (.seq l1 (.alt l2 .empty)) .empty)))
      .starSpace))).matchAt (0, '/' :: 'r' :: t)
      = some (if a.isPrefixOf t = true then
          (if b.isPrefixOf (t.drop a.length) = true then
            spacesEnd (2 + a.length + b.length, (t.drop a.length).drop b.length)
           else spacesEnd (2 + a.length, t.drop a.length))
        else spacesEnd (2, t)) := by
  simp only [Regex.matchAt, Regex.run, if_true, h1 _ _ _, h2 _ _ _, runSpaces_some, hd _]
  by_cases c1 : a.isPrefixOf t = true
  · by_cases c2 : b.isPrefixOf (t.drop a.length) = true
    · simp [c1, c2, Option.orElse]
    · simp [c1, c2, Option.orElse]
  · simp [c1, Option.orElse]

theorem actsAsLit_lit (cs : List Char) : actsAsLit (Regex.lit cs) cs :=
  fun p s k => run_lit cs s p k

/-- The match at offset 0 for a text that begins with `/d`. -/
theorem delCmd_matchAt_d (t : List Char) :
    delCmd.matchAt (0, '/' :: 'd' :: t)
      = some (if ['e', 'l'].isPrefixOf t = true then
          (if ['e', 't', 'e'].isPrefixOf (t.drop 2) = true then spacesEnd (7, (t.drop 2).drop 3)
           else spacesEnd (4, t.drop 2))
        else spacesEnd (2, t)) :=
  command_shape_d _ _ _ ['e', 'l'] ['e', 't', 'e'] t (actsAsLit_lit _) (actsAsLit_lit _)

/-- The match at offset 0 for a text that begins with `/r`. -/
theorem delCmd_matchAt_r (t : List Char) :
    delCmd.matchAt (0, '/' :: 'r' :: t)
      = some (if ['e', 'm'].isPrefixOf t = true then
          (if ['o', 'v', 'e'].isPrefixOf (t.drop 2) = true then spacesEnd (7, (t.drop 2).drop 3)
           else spacesEnd (4, t.drop 2))
        else spacesEnd (2, t)) :=
  command_shape_r _ _ _ ['e', 'm'] ['o', 'v', 'e'] t (actsAsLit_lit _) (actsAsLit_lit _)
    (fun k => by simp [Regex.run])

/-- Without `/d` or `/r` at its start the text has no match at offset 0. -/
theorem delCmd_matchAt_none (s : List Char)
    (h : ∀ t, s ≠ '/' :: 'd' :: t ∧ s ≠ '/' :: 'r' :: t) :
    delCmd.matchAt (0, s) = none := by
  rcases s with _ | ⟨c0, _ | ⟨c1, t⟩⟩
  · simp [delCmd, Regex.matchAt, Regex.run]
  · by_cases h0 : c0 = '/' <;> simp [delCmd, Regex.matchAt, Regex.run, h0, Option.orElse]
  · by_cases h0 : c0 = '/'
    · subst h0
      have hd : c1 ≠ 'd' := fun e => (h t).1 (by rw [e])
      have hr : c1 ≠ 'r' := fun e => (h t).2 (by rw [e])
      simp [delCmd, Regex.matchAt, Regex.run, hd, hr, Option.orElse]
    · simp [delCmd, Regex.matchAt, Regex.run, h0]

theorem searchFrom_later (s : List Char) (p : Nat) (hp : 0 < p) :
    delCmd.searchFrom p s = false := by
  induction s generalizing p with
  | nil => simp [Regex.searchFrom, delCmd_not_at_later_offset p [] hp]
  | cons x xs ih =>
    simp [Regex.searchFrom, delCmd_not_at_later_offset p (x :: xs) hp, ih (p + 1) (by omega)]

theorem MatchString_eq_isSome (s : String) :
    delCmd.MatchString s = (delCmd.matchAt (0, s.data)).isSome := by
  unfold Regex.MatchString
  cases s.data with
  | nil => rfl
  | cons x xs => simp [Regex.searchFrom, searchFrom_later xs 1 (by omega)]

theorem isPrefixOf_two_three (a b c d e : Char) (t : List Char) :
    [a, b, c, d, e].isPrefixOf t = ([a, b].isPrefixOf t && [c, d, e].isPrefixOf (t.drop 2)) := by
  rcases t with _ | ⟨x, _ | ⟨y, u⟩⟩ <;> simp [List.isPrefixOf, Bool.and_assoc]

theorem longestSpelling_d (t : List Char) :
    longestSpelling ('/' :: 'd' :: t)
      = some (if ['e', 'l'].isPrefixOf t = true then
          (if ['e', 't', 'e'].isPrefixOf (t.drop 2) = true then "/delete" else "/del")
        else "/d") := by
  have p1 : "/d".data.isPrefixOf ('/' :: 'd' :: t) = true := by
    simp [show "/d".data = ['/', 'd'] from rfl, List.isPrefixOf]
  have p2 : "/del".data.isPrefixOf ('/' :: 'd' :: t) = ['e', 'l'].isPrefixOf t := by
    simp [show "/del".data = ['/', 'd', 'e', 'l'] from rfl, List.isPrefixOf]
  have p3 : "/delete".data.isPrefixOf ('/' :: 'd' :: t)
      = (['e', 'l'].isPrefixOf t && ['e', 't', 'e'].isPrefixOf (t.drop 2)) := by
    rw [← isPrefixOf_two_three]
    simp [show "/delete".data = ['/', 'd', 'e', 'l', 'e', 't', 'e'] from rfl, List.isPrefixOf]
  have p4 : "/r".data.isPrefixOf ('/' :: 'd' :: t) = false := by
    simp [show "/r".data = ['/', 'r'] from rfl, List.isPrefixOf]
  have p5 : "/rem".data.isPrefixOf ('/' :: 'd' :: t) = false := by
    simp [show "/rem".data = ['/', 'r', 'e', 'm'] from rfl, List.isPrefixOf]
  have p6 : "/remove".data.isPrefixOf ('/' :: 'd' :: t) = false := by
    simp [show "/remove".data = ['/', 'r', 'e', 'm', 'o', 'v', 'e'] from rfl, List.isPrefixOf]
  simp only [longestSpelling, delSpellings, List.filter, p1, p2, p3, p4, p5, p6]
  by_cases c1 : ['e', 'l'].isPrefixOf t = true
  · by_cases c2 : ['e', 't', 'e'].isPrefixOf (t.drop 2) = true
    · simp only [c1, c2, Bool.and_self, List.foldl, if_true]
      decide
    · simp only [c1, c2, Bool.and_false, Bool.and_true, List.foldl, if_true, if_false]
      decide
  · simp only [c1, Bool.false_and, List.foldl, if_false]
    simp

theorem longestSpelling_r (t : List Char) :
    longestSpelling ('/' :: 'r' :: t)
      = some (if ['e', 'm'].isPrefixOf t = true then
          (if ['o', 'v', 'e'].isPrefixOf (t.drop 2) = true then "/remove" else "/rem")
        else "/r") := by
  have p1 : "/r".data.isPrefixOf ('/' :: 'r' :: t) = true := by
    simp [show "/r".data = ['/', 'r'] from rfl, List.isPrefixOf]
  have p2 : "/rem".data.isPrefixOf ('/' :: 'r' :: t) = ['e', 'm'].isPrefixOf t := by
    simp [show "/rem".data = ['/', 'r', 'e', 'm'] from rfl, List.isPrefixOf]
  have p3 : "/remove".data.isPrefixOf ('/' :: 'r' :: t)
      = (['e', 'm'].isPrefixOf t && ['o', 'v', 'e'].isPrefixOf (t.drop 2)) := by
    rw [← isPrefixOf_two_three]
    simp [show "/remove".data = ['/', 'r', 'e', 'm', 'o', 'v', 'e'] from rfl, List.isPrefixOf]
  have p4 : "/d".data.isPrefixOf ('/' :: 'r' :: t) = false := by
    simp [show "/d".data = ['/', 'd'] from rfl, List.isPrefixOf]
  have p5 : "/del".data.isPrefixOf ('/' :: 'r' :: t) = false := by
    simp [show "/del".data = ['/', 'd', 'e', 'l'] from rfl, List.isPrefixOf]
  have p6 : "/delete".data.isPrefixOf ('/' :: 'r' :: t) = false := by
    simp [show "/delete".data = ['/', 'd', 'e', 'l', 'e', 't', 'e'] from rfl, List.isPrefixOf]
  simp only [longestSpelling, delSpellings, List.filter, p1, p2, p3, p4, p5, p6]
  by_cases c1 : ['e', 'm'].isPrefixOf t = true
  · by_cases c2 : ['o', 'v', 'e'].isPrefixOf (t.drop 2) = true
    · simp only [c1, c2, Bool.and_self, List.foldl, if_true]
      decide
    · simp only [c1, c2, Bool.and_false, Bool.and_true, List.foldl, if_true, if_false]
      decide
  · simp only [c1, Bool.false_and, List.foldl, if_false]
    simp


theorem spacesEnd_fst_le (n : Nat) (u : List Char) : n ≤ (spacesEnd (n, u)).1 := by
  simp [spacesEnd]

theorem beginsWithCommandLetter_iff (input : String) :
    beginsWithCommandLetter input = true
      ↔ ∃ t, input.data = '/' :: 'd' :: t ∨ input.data = '/' :: 'r' :: t := by
  unfold beginsWithCommandLetter hasPrefix
  rw [show "/d".data = ['/', 'd'] from rfl, show "/r".data = ['/', 'r'] from rfl]
  rcases input.data with _ | ⟨c0, _ | ⟨c1, t⟩⟩
  · simp [List.isPrefixOf]
  · simp [List.isPrefixOf]
  · simp only [List.isPrefixOf, Bool.and_true, Bool.or_eq_true, Bool.and_eq_true, beq_iff_eq,
      List.cons.injEq]
    constructor
    · rintro (⟨h0, h1⟩ | ⟨h0, h1⟩)
      · exact ⟨t, Or.inl ⟨h0.symm, h1.symm, rfl⟩⟩
      · exact ⟨t, Or.inr ⟨h0.symm, h1.symm, rfl⟩⟩
    · rintro ⟨u, ⟨h0, h1, _⟩ | ⟨h0, h1, _⟩⟩
      · exact Or.inl ⟨h0.symm, h1.symm⟩
      · exact Or.inr ⟨h0.symm, h1.symm⟩

/-- For a text that begins with `/d` or `/r` the pattern matches at offset 0,
and what is left behind the match is the text that `stripCommandSpec`
describes. -/
theorem delCmd_matchAt_begins (input : String) (h : beginsWithCommandLetter input = true) :
    ∃ q, 0 < q ∧ delCmd.matchAt (0, input.data) = some (q, (stripCommandSpec input).data) := by
  obtain ⟨t, ht | ht⟩ := (beginsWithCommandLetter_iff input).1 h
  · unfold stripCommandSpec
    rw [ht, delCmd_matchAt_d, longestSpelling_d]
    by_cases c1 : ['e', 'l'].isPrefixOf t = true
    · by_cases c2 : ['e', 't', 'e'].isPrefixOf (t.drop 2) = true
      · refine ⟨(spacesEnd (7, (t.drop 2).drop 3)).1, ?_, ?_⟩
        · have := spacesEnd_fst_le 7 ((t.drop 2).drop 3)
          omega
        · simp [c1, c2, spacesEnd, String.length]
      · refine ⟨(spacesEnd (4, t.drop 2)).1, ?_, ?_⟩
        · have := spacesEnd_fst_le 4 (t.drop 2)
          omega
        · simp [c1, c2, spacesEnd, String.length]
    · refine ⟨(spacesEnd (2, t)).1, ?_, ?_⟩
      · have := spacesEnd_fst_le 2 t
        omega
      · simp [c1, spacesEnd, String.length]
  · unfold stripCommandSpec
    rw [ht, delCmd_matchAt_r, longestSpelling_r]
    by_cases c1 : ['e', 'm'].isPrefixOf t = true
    · by_cases c2 : ['o', 'v', 'e'].isPrefixOf (t.drop 2) = true
      · refine ⟨(spacesEnd (7, (t.drop 2).drop 3)).1, ?_, ?_⟩
        · have := spacesEnd_fst_le 7 ((t.drop 2).drop 3)
          omega
        · simp [c1, c2, spacesEnd, String.length]
      · refine ⟨(spacesEnd (4, t.drop 2)).1, ?_, ?_⟩
        · have := spacesEnd_fst_le 4 (t.drop 2)
          omega
        · simp [c1, c2, spacesEnd, String.length]
    · refine ⟨(spacesEnd (2, t)).1, ?_, ?_⟩
      · have := spacesEnd_fst_le 2 t
        omega
      · simp [c1, spacesEnd, String.length]

theorem MatchString_eq_begins (input : String) :
    delCmd.MatchString input = beginsWithCommandLetter input := by
  rw [MatchString_eq_isSome]
  by_cases h : beginsWithCommandLetter input = true
  · obtain ⟨q, _, hm⟩ := delCmd_matchAt_begins input h
    rw [hm, h]
    rfl
  · have hn : delCmd.matchAt (0, input.data) = none := by
      apply delCmd_matchAt_none
      intro t
      constructor
      · intro e
        exact h ((beginsWithCommandLetter_iff input).2 ⟨t, Or.inl e⟩)
      · intro e
        exact h ((beginsWithCommandLetter_iff input).2 ⟨t, Or.inr e⟩)
    rw [hn]
    simp only [Bool.not_eq_true] at h
    rw [h]
    rfl


/-! ## Lemmas: `reply` on a failed check -/

theorem check_of_dial_error (dial : Dialer) (input : String) (err : NetErr)
    (h : dial (dialAddress input) = .error err) : check dial input = (Time.zero, some err) := by
  unfold check
  simp only [dialAddress] at h
  simp only [h]

theorem check_eq (dial : Dialer) (input : String) :
    check dial input
      = match dial (dialAddress input) with
        | .error err => (Time.zero, some err)
        | .ok chains => (scanChains chains, none) := rfl

theorem check_error_expiry (dial : Dialer) (input : String) (expiry : Time) (err : NetErr)
    (h : check dial input = (expiry, some err)) : expiry = Time.zero := by
  rw [check_eq] at h
  cases hd : dial (dialAddress input) with
  | error e =>
    rw [hd] at h
    simp only [Prod.mk.injEq] at h
    exact h.1.symm
  | ok chains =>
    rw [hd] at h
    simp at h

/-- A failed check is answered with the text of its failure class, the zero
expiry and the action `NOTHING`. -/
theorem reply_of_check_error (dial : Dialer) (now : Time) (input : String) (expiry : Time)
    (err : NetErr) (hstart : input ≠ "/start") (hlist : input ≠ "/list")
    (hdel : delCmd.MatchString input = false) (hcheck : check dial input = (expiry, some err)) :
    reply dial now input = (errorText input (ErrorKind.of err), Time.zero, NOTHING) := by
  have hz := check_error_expiry dial input expiry err hcheck
  subst hz
  unfold reply
  simp only [hstart, hlist, hdel, hcheck, if_false, Bool.false_eq_true]
  unfold ErrorKind.of
  by_cases h1 : err.isNetError = true ∧ err.timeout = true
  · simp [h1, errorText]
  · have h1' : (err.isNetError && err.timeout) = false := by
      rw [← Bool.not_eq_true, Bool.and_eq_true]
      exact h1
    by_cases h2 : contains err.text "no such host" = true
    · simp [h1, h1', h2, errorText]
    · by_cases h3 : contains err.text "no route to host" = true
      · simp [h1, h1', h2, h3, errorText]
      · simp [h1, h1', h2, h3, errorText]

theorem check_cases (dial : Dialer) (input : String) :
    (∃ expiry, check dial input = (expiry, none))
      ∨ (∃ err, check dial input = (Time.zero, some err)) := by
  rw [check_eq]
  cases dial (dialAddress input) with
  | error e => exact Or.inr ⟨e, rfl⟩
  | ok chains => exact Or.inl ⟨_, rfl⟩

theorem hasPrefix_http_of_begins (input : String) (h : beginsWithCommandLetter input = true) :
    hasPrefix input "http" = false := by
  obtain ⟨t, ht | ht⟩ := (beginsWithCommandLetter_iff input).1 h <;>
    simp [hasPrefix, ht, show "http".data = ['h', 't', 't', 'p'] from rfl, List.isPrefixOf]

/-! ## Lemmas: `url.Parse` on a plain URL -/

theorem not_isCTL_of_isAlphanum (c : Char) (h : c.isAlphanum = true) : isCTL c = false := by
  simp only [Char.isAlphanum, Char.isAlpha, Char.isUpper, Char.isLower, Char.isDigit,
    Bool.or_eq_true, Bool.and_eq_true, decide_eq_true_eq, ge_iff_le] at h
  simp only [isCTL, Char.toNat, Bool.or_eq_false_iff, decide_eq_false_iff_not]
  have key : ∀ a b : UInt32, a ≤ b ↔ a.toNat ≤ b.toNat := fun _ _ => Iff.rfl
  simp only [key] at h
  have e1 : (65 : UInt32).toNat = 65 := rfl
  have e2 : (90 : UInt32).toNat = 90 := rfl
  have e3 : (97 : UInt32).toNat = 97 := rfl
  have e4 : (122 : UInt32).toNat = 122 := rfl
  have e5 : (48 : UInt32).toNat = 48 := rfl
  have e6 : (57 : UInt32).toNat = 57 := rfl
  rw [e1, e2, e3, e4, e5, e6] at h
  omega

/-- What a hostname character is not, and that it may stand in a host. -/
theorem isHostnameChar_facts (c : Char) (h : isHostnameChar c = true) :
    isCTL c = false ∧ c ≠ '#' ∧ c ≠ '?' ∧ c ≠ '/' ∧ c ≠ '@' ∧ c ≠ ':' ∧ c ≠ '[' ∧ c ≠ '%'
      ∧ shouldEscapeHost c = false := by
  refine ⟨?_, ?_, ?_, ?_, ?_, ?_, ?_, ?_, ?_⟩
  · unfold isHostnameChar at h
    simp only [Bool.or_eq_true, decide_eq_true_eq] at h
    rcases h with (h | h) | h
    · exact not_isCTL_of_isAlphanum c h
    · subst h
      decide
    · subst h
      decide
  · rintro rfl
    revert h
    decide
  · rintro rfl
    revert h
    decide
  · rintro rfl
    revert h
    decide
  · rintro rfl
    revert h
    decide
  · rintro rfl
    revert h
    decide
  · rintro rfl
    revert h
    decide
  · rintro rfl
    revert h
    decide
  · unfold isHostnameChar at h
    simp only [Bool.or_eq_true, decide_eq_true_eq] at h
    unfold shouldEscapeHost
    rcases h with (h | h) | h
    · simp [h]
    · subst h
      decide
    · subst h
      decide

theorem span_append_stop (p : Char → Bool) (l1 l2 : List Char) (h1 : ∀ c ∈ l1, p c = true)
    (h2 : l2.takeWhile p = []) : (l1 ++ l2).span p = (l1, l2) := by
  rw [List.span_eq_take_drop, List.takeWhile_append_of_pos h1, List.dropWhile_append_of_pos h1,
    h2, List.append_nil]
  have := List.takeWhile_append_dropWhile p l2
  rw [h2, List.nil_append] at this
  rw [this]

theorem takeWhile_nil_of_head (p : Char → Bool) (l : List Char)
    (h : l = [] ∨ ∃ x xs, l = x :: xs ∧ p x = false) : l.takeWhile p = [] := by
  rcases h with rfl | ⟨x, xs, rfl, hx⟩
  · rfl
  · simp [List.takeWhile_cons, hx]

/-- Go `strings.Cut` finds nothing when the separator does not occur. -/
theorem cut_of_not_mem (sep : Char) (l : List Char) (h : sep ∉ l) : cut sep l = (l, [], false) := by
  have h1 : ∀ c ∈ l, (c != sep) = true := by
    intro c hc
    simp only [bne_iff_ne, ne_eq]
    rintro rfl
    exact h hc
  have := span_append_stop (fun c => c != sep) l [] h1 rfl
  rw [List.append_nil] at this
  unfold cut
  rw [this]

/-- Go `strings.Cut` at the first occurrence of the separator. -/
theorem cut_at_first (sep : Char) (l t : List Char) (h : sep ∉ l) :
    cut sep (l ++ sep :: t) = (l, t, true) := by
  have h1 : ∀ c ∈ l, (c != sep) = true := by
    intro c hc
    simp only [bne_iff_ne, ne_eq]
    rintro rfl
    exact h hc
  have := span_append_stop (fun c => c != sep) l (sep :: t) h1 (by simp [List.takeWhile_cons])
  unfold cut
  rw [this]

theorem lastIndexLoop_of_not_mem (c : Char) (l : List Char) (i : Nat) (found : Option Nat)
    (h : c ∉ l) : lastIndexLoop c i l found = found := by
  induction l generalizing i found with
  | nil => rfl
  | cons x xs ih =>
    have hx : x ≠ c := fun e => h (by simp [e])
    have hxs : c ∉ xs := fun e => h (by simp [e])
    simp only [lastIndexLoop, hx, if_false]
    exact ih _ _ hxs

theorem lastIndexOf_of_not_mem (c : Char) (l : List Char) (h : c ∉ l) : lastIndexOf c l = none :=
  lastIndexLoop_of_not_mem c l 0 none h

theorem unescapeValid_host_of_hostname (l : List Char) (h : ∀ c ∈ l, isHostnameChar c = true) :
    unescapeValid .encodeHost l = true := by
  induction l with
  | nil => rfl
  | cons x xs ih =>
    obtain ⟨_, _, _, _, _, _, _, hpc, hse⟩ := isHostnameChar_facts x (h x (by simp))
    have hxs : ∀ c ∈ xs, isHostnameChar c = true := fun c hc => h c (by simp [hc])
    unfold unescapeValid
    split
    · rfl
    · rename_i heq
      exact absurd (List.cons.inj heq).1 hpc
    · rename_i heq
      exact absurd (List.cons.inj heq).1 hpc
    · rename_i heq
      have e := List.cons.inj heq
      rw [← e.1, ← e.2]
      simp [hse, ih hxs]

/-- A bare hostname is its own host: `parseAuthority` returns it unchanged. -/
theorem parseAuthority_of_hostname (l : List Char) (h : ∀ c ∈ l, isHostnameChar c = true) :
    parseAuthority l = .ok l := by
  have hat : '@' ∉ l := fun hm => (isHostnameChar_facts _ (h _ hm)).2.2.2.2.1 rfl
  have hcolon : ':' ∉ l := fun hm => (isHostnameChar_facts _ (h _ hm)).2.2.2.2.2.1 rfl
  have hpct : '%' ∉ l := fun hm => (isHostnameChar_facts _ (h _ hm)).2.2.2.2.2.2.2.1 rfl
  have hbr : ['['].isPrefixOf l = false := by
    cases l with
    | nil => rfl
    | cons x xs =>
      have : x ≠ '[' := (isHostnameChar_facts x (h x (by simp))).2.2.2.2.2.2.1
      simp [List.isPrefixOf, this.symm]
  have hun : unescape .encodeHost l = .ok l := by
    unfold unescape
    rw [unescapeValid_host_of_hostname l h]
    simp [hpct]
  unfold parseAuthority
  rw [lastIndexOf_of_not_mem _ _ hat]
  unfold parseHost
  rw [hbr]
  simp only [Bool.false_eq_true, if_false]
  rw [lastIndexOf_of_not_mem _ _ hcolon]
  exact hun

theorem beforeQuery_spec (a q : List Char) (ha : '?' ∉ a)
    (hq : q = [] ∨ ∃ t, q = '?' :: t) : beforeQuery (a ++ q) = a := by
  unfold beforeQuery
  rcases hq with rfl | ⟨t, rfl⟩
  · rw [List.append_nil]
    have hc : List.count '?' a = 0 := List.count_eq_zero.2 ha
    rw [if_neg (by rw [hc]; simp), cut_of_not_mem _ _ ha]
  · split
    · rename_i hcond
      obtain ⟨hlast, hcount⟩ := hcond
      rw [List.count_append, List.count_eq_zero.2 ha, List.count_cons_self] at hcount
      have ht : '?' ∉ t := List.count_eq_zero.1 (by omega)
      have htnil : t = [] := by
        by_contra hne
        obtain ⟨t', x, rfl⟩ : ∃ t' x, t = t' ++ [x] :=
          ⟨t.dropLast, t.getLast hne, (List.dropLast_append_getLast hne).symm⟩
        have e : a ++ '?' :: (t' ++ [x]) = (a ++ '?' :: t') ++ [x] := by simp
        rw [e, List.getLast?_concat] at hlast
        have hx : x = '?' := Option.some.inj hlast
        exact ht (by simp [hx])
      subst htnil
      exact List.dropLast_concat
    · rw [cut_at_first _ _ _ ha]

theorem unescape_ok_of_valid (mode : Encoding) (l : List Char) (h : unescapeValid mode l = true) :
    ∃ r, unescape mode l = .ok r := by
  unfold unescape
  rw [h]
  by_cases hc : '%' ∈ l
  · exact ⟨unescapeDecode l, by simp [hc]⟩
  · exact ⟨l, by simp [hc]⟩

/-- What `parse` finds in `scheme://host/path?query`: the host. -/
theorem parseNoFragment_plain (s h p q : List Char)
    (hs1 : ∀ t, getScheme (s ++ ':' :: t) = .ok (s, t)) (hs2 : ∀ c ∈ s, isCTL c = false)
    (hs3 : s ≠ [])
    (hh : ∀ c ∈ h, isHostnameChar c = true)
    (hp1 : p = [] ∨ ∃ t, p = '/' :: t) (hp2 : ∀ c ∈ p, c ≠ '?' ∧ isCTL c = false)
    (hp3 : unescapeValid .encodePath p = true)
    (hq1 : q = [] ∨ ∃ t, q = '?' :: t) (hq2 : ∀ c ∈ q, isCTL c = false) :
    parseNoFragment (s ++ ':' :: '/' :: '/' :: (h ++ p ++ q)) = .ok h := by
  have hctl : stringContainsCTLByte (s ++ ':' :: '/' :: '/' :: (h ++ p ++ q)) = false := by
    unfold stringContainsCTLByte
    rw [← Bool.not_eq_true, List.any_eq_true]
    rintro ⟨c, hc, hcc⟩
    simp only [List.mem_append, List.mem_cons] at hc
    rcases hc with hc | rfl | rfl | rfl | (hc | hc) | hc
    · rw [hs2 c hc] at hcc
      exact Bool.noConfusion hcc
    · revert hcc
      decide
    · revert hcc
      decide
    · revert hcc
      decide
    · rw [(isHostnameChar_facts c (hh c hc)).1] at hcc
      exact Bool.noConfusion hcc
    · rw [(hp2 c hc).2] at hcc
      exact Bool.noConfusion hcc
    · rw [hq2 c hc] at hcc
      exact Bool.noConfusion hcc
  have hstar : s ++ ':' :: '/' :: '/' :: (h ++ p ++ q) ≠ ['*'] := by
    intro e
    have := congrArg List.length e
    simp at this
    omega
  have hrest : beforeQuery ('/' :: '/' :: (h ++ p ++ q)) = '/' :: '/' :: (h ++ p) := by
    have e : '/' :: '/' :: (h ++ p ++ q) = ('/' :: '/' :: (h ++ p)) ++ q := by simp
    rw [e]
    apply beforeQuery_spec _ _ _ hq1
    intro hm
    simp only [List.mem_cons, List.mem_append] at hm
    rcases hm with hm | hm | hm | hm
    · revert hm
      decide
    · revert hm
      decide
    · exact (isHostnameChar_facts _ (hh _ hm)).2.2.1 rfl
    · exact (hp2 _ hm).1 rfl
  have hspan : (h ++ p).span (fun c => c != '/') = (h, p) := by
    apply span_append_stop
    · intro c hc
      simp only [bne_iff_ne, ne_eq]
      exact (isHostnameChar_facts c (hh c hc)).2.2.2.1
    · apply takeWhile_nil_of_head
      rcases hp1 with rfl | ⟨t, rfl⟩
      · exact Or.inl rfl
      · exact Or.inr ⟨'/', t, rfl, by decide⟩
  obtain ⟨r, hr⟩ := unescape_ok_of_valid .encodePath p hp3
  unfold parseNoFragment
  rw [hctl]
  simp only [Bool.false_eq_true, if_false, hstar, hs1, hrest]
  simp only [List.isPrefixOf, beq_self_eq_true, Bool.true_and, Bool.true_eq_false, false_and,
    if_false, hs3, ne_eq, not_false_eq_true, true_or, and_self, if_true, List.drop_succ_cons,
    List.drop_zero, hspan, parseAuthority_of_hostname h hh, hr]

theorem cons_of_isPrefixOf_singleton (x : Char) (l : List Char)
    (h : l = [] ∨ [x].isPrefixOf l = true) : l = [] ∨ ∃ t, l = x :: t := by
  rcases h with h | h
  · exact Or.inl h
  · cases l with
    | nil => exact Or.inl rfl
    | cons y t =>
      simp only [List.isPrefixOf, Bool.and_true, beq_iff_eq] at h
      exact Or.inr ⟨t, by rw [h]⟩

/-- What `url.Parse` returns for `scheme://host/path?query` with a bare
hostname and a path and query it accepts: no error, and the host. -/
theorem urlParse_plain (scheme host path query : String)
    (hscheme : scheme = "http" ∨ scheme = "https") (hhost : bareHostname host = true)
    (hpath : plainPath path = true) (hquery : plainQuery query = true) :
    urlParse (scheme ++ "://" ++ host ++ path ++ query) = .ok ⟨host⟩ := by
  simp only [bareHostname, List.all_eq_true] at hhost
  simp only [plainPath, plainQuery, Bool.and_eq_true, Bool.or_eq_true, decide_eq_true_eq,
    List.all_eq_true, bne_iff_ne, ne_eq, Bool.not_eq_true'] at hpath hquery
  obtain ⟨⟨hp1, hp2⟩, hp3⟩ := hpath
  obtain ⟨hq1, hq2⟩ := hquery
  have hs : ∃ s : List Char, scheme.data = s ∧ (∀ t, getScheme (s ++ ':' :: t) = .ok (s, t))
      ∧ (∀ c ∈ s, isCTL c = false) ∧ s ≠ [] ∧ '#' ∉ s := by
    rcases hscheme with rfl | rfl
    · exact ⟨['h', 't', 't', 'p'], rfl, fun _ => rfl, by decide, by decide, by decide⟩
    · exact ⟨['h', 't', 't', 'p', 's'], rfl, fun _ => rfl, by decide, by decide, by decide⟩
  obtain ⟨s, hsd, hs1, hs2, hs3, hs4⟩ := hs
  have hdata : (scheme ++ "://" ++ host ++ path ++ query).data
      = s ++ ':' :: '/' :: '/' :: (host.data ++ path.data ++ query.data) := by
    simp only [String.data_append, hsd, show "://".data = [':', '/', '/'] from rfl,
      List.append_assoc, List.cons_append, List.nil_append]
  have hparse := parseNoFragment_plain s host.data path.data query.data hs1 hs2 hs3 hhost
    (cons_of_isPrefixOf_singleton '/' _ hp1) (fun c hc => ⟨(hp2 c hc).1.1, (hp2 c hc).2⟩) hp3
    (cons_of_isPrefixOf_singleton '?' _ hq1) (fun c hc => (hq2 c hc).2)
  have hsharp : '#' ∉ s ++ ':' :: '/' :: '/' :: (host.data ++ path.data ++ query.data) := by
    intro hm
    simp only [List.mem_append, List.mem_cons] at hm
    rcases hm with hm | hm | hm | hm | (hm | hm) | hm
    · exact hs4 hm
    · revert hm
      decide
    · revert hm
      decide
    · revert hm
      decide
    · exact (isHostnameChar_facts _ (hhost _ hm)).2.1 rfl
    · exact (hp2 _ hm).1.2 rfl
    · exact (hq2 _ hm).1 rfl
  unfold urlParse
  simp only [hdata, cut_of_not_mem _ _ hsharp, hparse, if_true]

/-! ## Claims about `sanitize` and the command classes of `reply` -/

/-- C11, as stated, fails: `https://example.com/%zz` has the form
`scheme://host/path` with the bare hostname `example.com`, `url.Parse`
rejects its path, and `sanitize` returns the whole text, not the host. -/
theorem C11_invalid_escape_returns_input :
    "https" ++ "://" ++ "example.com" ++ "/%zz" ++ "" = "https://example.com/%zz"
      ∧ bareHostname "example.com" = true
      ∧ sanitize urlParse "https://example.com/%zz" = "https://example.com/%zz"
      ∧ sanitize urlParse "https://example.com/%zz" ≠ "example.com" := by
  decide

/-- C11, amended: for an input `scheme://host/path?query` with scheme `http`
or `https`, a bare hostname, and a path and query that `url.Parse` accepts (no
control character, no `#`, every `%` of the path followed by two hexadecimal
digits), `sanitize` returns exactly `host`; and whenever `url.Parse` reports an
error, `sanitize` returns its input unchanged. -/
theorem C11_sanitize_returns_host_of_url (scheme host path query : String)
    (hscheme : scheme = "http" ∨ scheme = "https") (hhost : bareHostname host = true)
    (hpath : plainPath path = true) (hquery : plainQuery query = true) :
    sanitize urlParse (scheme ++ "://" ++ host ++ path ++ query) = host
      ∧ ∀ (input : String) (e : String), urlParse input = .error e →
          sanitize urlParse input = input := by
  constructor
  · have hp : hasPrefix (scheme ++ "://" ++ host ++ path ++ query) "http" = true := by
      rcases hscheme with rfl | rfl <;>
        simp [hasPrefix, String.data_append, show "http".data = ['h', 't', 't', 'p'] from rfl,
          show "https".data = ['h', 't', 't', 'p', 's'] from rfl, List.isPrefixOf]
    unfold sanitize
    rw [if_pos hp, urlParse_plain scheme host path query hscheme hhost hpath hquery]
  · intro input e he
    unfold sanitize
    rw [he]
    split <;> rfl

/-- C11, amended, at the input of the specification. -/
theorem C11_sanitize_returns_host_of_url_witness :
    sanitize urlParse "https://example.com/path?x=1" = "example.com" :=
  (C11_sanitize_returns_host_of_url "https" "example.com" "/path" "?x=1" (Or.inr rfl)
    (by decide) (by decide) (by decide)).1

/-- C12: an input that does not begin with `http` comes back from `sanitize`
unchanged, whatever the URL parser is; so do `/start`, `/list` and every text
that the delete pattern matches. -/
theorem C12_sanitize_keeps_input_without_http (parse : UrlParser) (input : String)
    (h : hasPrefix input "http" = false) :
    sanitize parse input = input
      ∧ sanitize parse "/start" = "/start"
      ∧ sanitize parse "/list" = "/list"
      ∧ ∀ cmd, delCmd.MatchString cmd = true → sanitize parse cmd = cmd := by
  have key : ∀ s, hasPrefix s "http" = false → sanitize parse s = s := by
    intro s hs
    unfold sanitize
    rw [hs]
    rfl
  refine ⟨key input h, key _ (by decide), key _ (by decide), ?_⟩
  intro cmd hcmd
  rw [MatchString_eq_begins] at hcmd
  exact key cmd (hasPrefix_http_of_begins cmd hcmd)

/-- C12 at a delete command and at a bare hostname. -/
theorem C12_sanitize_keeps_input_without_http_witness :
    sanitize exParse "/delete example.com" = "/delete example.com"
      ∧ sanitize exParse "example.com" = "example.com" :=
  ⟨(C12_sanitize_keeps_input_without_http exParse "/delete example.com" (by decide)).1,
   (C12_sanitize_keeps_input_without_http exParse "example.com" (by decide)).1⟩

/-- C16: when the check fails, the output of `reply` is the timeout text with
the host for a network timeout, otherwise the no-such-host text when the error
text has `no such host`, otherwise the no-route text when it has `no route to
host`, otherwise the general text; the class is found in that order, so one
text applies; the output is one of these four texts, none built from the
error text; the expiry is zero and the action `NOTHING`. -/
theorem C16_error_message_by_failure_class (dial : Dialer) (now : Time) (input : String)
    (err : NetErr) (hstart : input ≠ "/start") (hlist : input ≠ "/list")
    (hdel : delCmd.MatchString input = false)
    (hdial : dial (dialAddress input) = .error err) :
    reply dial now input = (errorText input (ErrorKind.of err), Time.zero, NOTHING)
      ∧ (err.isNetError = true ∧ err.timeout = true →
          (reply dial now input).1 = "Timed out connecting " ++ input)
      ∧ (¬ (err.isNetError = true ∧ err.timeout = true) →
          contains err.text "no such host" = true →
          (reply dial now input).1 = "No such host.")
      ∧ (¬ (err.isNetError = true ∧ err.timeout = true) →
          contains err.text "no such host" = false →
          contains err.text "no route to host" = true →
          (reply dial now input).1 = "I don't understand what you typed.")
      ∧ (¬ (err.isNetError = true ∧ err.timeout = true) →
          contains err.text "no such host" = false →
          contains err.text "no route to host" = false →
          (reply dial now input).1 = "Something went wrong.")
      ∧ (reply dial now input).1 ∈
          ["Timed out connecting " ++ input, "No such host.",
           "I don't understand what you typed.", "Something went wrong."] := by
  have hr := reply_of_check_error dial now input Time.zero err hstart hlist hdel
    (check_of_dial_error dial input err hdial)
  rw [hr]
  refine ⟨rfl, ?_, ?_, ?_, ?_, ?_⟩
  · intro h1
    simp [ErrorKind.of, h1, errorText]
  · intro h1 h2
    simp [ErrorKind.of, h1, h2, errorText]
  · intro h1 h2 h3
    simp [ErrorKind.of, h1, h2, h3, errorText]
  · intro h1 h2 h3
    simp [ErrorKind.of, h1, h2, h3, errorText]
  · cases ErrorKind.of err <;> simp [errorText]

/-- C16 at four errors, one of each class; the DNS error is also a
`net.Error`, without timeout. -/
theorem C16_error_message_by_failure_class_witness :
    reply (dialFailing exTimeoutErr) exNow "a.example"
        = ("Timed out connecting a.example", Time.zero, NOTHING)
      ∧ reply (dialFailing exDNSErr) exNow "a.example" = ("No such host.", Time.zero, NOTHING)
      ∧ reply (dialFailing exRouteErr) exNow "a.example"
          = ("I don't understand what you typed.", Time.zero, NOTHING)
      ∧ reply (dialFailing exCertErr) exNow "a.example"
          = ("Something went wrong.", Time.zero, NOTHING) := by
  refine ⟨?_, ?_, ?_, ?_⟩
  · rw [(C16_error_message_by_failure_class (dialFailing exTimeoutErr) exNow "a.example"
      exTimeoutErr (by decide) (by decide) (by decide) rfl).1]
    decide
  · rw [(C16_error_message_by_failure_class (dialFailing exDNSErr) exNow "a.example"
      exDNSErr (by decide) (by decide) (by decide) rfl).1]
    decide
  · rw [(C16_error_message_by_failure_class (dialFailing exRouteErr) exNow "a.example"
      exRouteErr (by decide) (by decide) (by decide) rfl).1]
    decide
  · rw [(C16_error_message_by_failure_class (dialFailing exCertErr) exNow "a.example"
      exCertErr (by decide) (by decide) (by decide) rfl).1]
    decide

/-! ## Lemmas: permutation and stability of `Sort` -/

theorem perm_insertStable (m : expiryMessage) (l : expiryMessages) :
    (insertStable m l).Perm (m :: l) := by
  induction l with
  | nil => exact List.Perm.refl _
  | cons x xs ih =>
    unfold insertStable
    split
    · exact (List.Perm.cons x ih).trans (List.Perm.swap m x xs)
    · exact List.Perm.refl _

theorem perm_Sort (eMs : expiryMessages) : (expiryMessages.Sort eMs).Perm eMs := by
  induction eMs with
  | nil => exact List.Perm.refl _
  | cons m ms ih =>
    have : expiryMessages.Sort (m :: ms) = insertStable m (expiryMessages.Sort ms) := rfl
    rw [this]
    exact (perm_insertStable m _).trans (List.Perm.cons m ih)

theorem withExpiry_cons (t : Time) (m : expiryMessage) (l : expiryMessages) :
    withExpiry t (m :: l) = if m.Expiry = t then m :: withExpiry t l else withExpiry t l := by
  unfold withExpiry
  by_cases h : m.Expiry = t <;> simp [List.filter_cons, h]

theorem withExpiry_insertStable (t : Time) (m : expiryMessage) (l : expiryMessages) :
    withExpiry t (insertStable m l) = withExpiry t (m :: l) := by
  induction l with
  | nil => rfl
  | cons x xs ih =>
    unfold insertStable
    split
    · rename_i hlt
      rw [less_iff] at hlt
      rw [withExpiry_cons, ih, withExpiry_cons, withExpiry_cons, withExpiry_cons]
      by_cases hx : x.Expiry = t
      · have hm : m.Expiry ≠ t := by
          intro e
          rw [← hx] at e
          rw [e] at hlt
          omega
        simp [hx, hm]
      · simp [hx]
    · rfl

theorem withExpiry_Sort (t : Time) (eMs : expiryMessages) :
    withExpiry t (expiryMessages.Sort eMs) = withExpiry t eMs := by
  induction eMs with
  | nil => rfl
  | cons m ms ih =>
    have : expiryMessages.Sort (m :: ms) = insertStable m (expiryMessages.Sort ms) := rfl
    rw [this, withExpiry_insertStable, withExpiry_cons, withExpiry_cons, ih]

theorem mem_of_mem_withExpiry (t : Time) (m : expiryMessage) (l : expiryMessages)
    (h : m ∈ withExpiry t l) : m ∈ l ∧ m.Expiry = t := by
  unfold withExpiry at h
  simpa using h

/-- Two lists in non-decreasing order of expiry that have, for each expiry,
the same entries in the same order are equal. -/
theorem eq_of_sorted_of_withExpiry (l1 l2 : expiryMessages)
    (h1 : sortedByExpiry l1) (h2 : sortedByExpiry l2)
    (h : ∀ t, withExpiry t l1 = withExpiry t l2) : l1 = l2 := by
  induction l1 generalizing l2 with
  | nil =>
    cases l2 with
    | nil => rfl
    | cons b l2' =>
      have := h b.Expiry
      rw [withExpiry_cons] at this
      simp [withExpiry] at this
  | cons a l1' ih =>
    cases l2 with
    | nil =>
      have := h a.Expiry
      rw [withExpiry_cons] at this
      simp [withExpiry] at this
    | cons b l2' =>
      unfold sortedByExpiry at h1 h2
      rw [List.pairwise_cons] at h1 h2
      have hab : a = b := by
        by_cases hk : b.Expiry = a.Expiry
        · have := h a.Expiry
          rw [withExpiry_cons, withExpiry_cons] at this
          simp only [hk, if_true] at this
          exact (List.cons.inj this).1
        · exfalso
          have ha := h a.Expiry
          rw [withExpiry_cons, withExpiry_cons] at ha
          simp only [hk, if_true, if_false] at ha
          have hain : a ∈ l2' := by
            have : a ∈ withExpiry a.Expiry l2' := by
              rw [← ha]
              exact List.mem_cons_self _ _
            exact (mem_of_mem_withExpiry _ _ _ this).1
          have hb := h b.Expiry
          rw [withExpiry_cons, withExpiry_cons] at hb
          have hk' : ¬ a.Expiry = b.Expiry := fun e => hk e.symm
          simp only [hk', if_true, if_false] at hb
          have hbin : b ∈ l1' := by
            have : b ∈ withExpiry b.Expiry l1' := by
              rw [hb]
              exact List.mem_cons_self _ _
            exact (mem_of_mem_withExpiry _ _ _ this).1
          have e1 := h1.1 b hbin
          have e2 := h2.1 a hain
          rw [less_false_iff] at e1 e2
          apply hk
          cases hbE : b.Expiry
          cases haE : a.Expiry
          rw [hbE, haE] at e1 e2
          simp only at e1 e2
          congr
          omega
      subst hab
      congr 1
      apply ih l2' h1.2 h2.2
      intro t
      have := h t
      rw [withExpiry_cons, withExpiry_cons] at this
      by_cases ht : a.Expiry = t
      · simp only [ht, if_true] at this
        exact (List.cons.inj this).2
      · simp only [ht, if_false] at this
        exact this

theorem withExpiry_length_le_one (t : Time) (l : expiryMessages)
    (hd : (l.map (fun m => m.Expiry)).Nodup) : (withExpiry t l).length ≤ 1 := by
  induction l with
  | nil => simp [withExpiry]
  | cons a l ih =>
    rw [List.map_cons, List.nodup_cons] at hd
    rw [withExpiry_cons]
    split
    · rename_i hat
      have : withExpiry t l = [] := by
        unfold withExpiry
        rw [List.filter_eq_nil_iff]
        intro m hm hmt
        apply hd.1
        simp only [decide_eq_true_eq] at hmt
        rw [hat, ← hmt]
        exact List.mem_map_of_mem _ hm
      rw [this]
      simp
    · exact ih hd.2

/-- Permutations of results with pairwise distinct expiries agree on the
entries of each expiry. -/
theorem withExpiry_eq_of_perm_of_distinct (l1 l2 : expiryMessages) (hperm : l1.Perm l2)
    (hd : (l1.map (fun m => m.Expiry)).Nodup) (t : Time) :
    withExpiry t l1 = withExpiry t l2 := by
  have hd2 : (l2.map (fun m => m.Expiry)).Nodup := (hperm.map _).nodup_iff.1 hd
  have hp : (withExpiry t l1).Perm (withExpiry t l2) := hperm.filter _
  have n1 := withExpiry_length_le_one t l1 hd
  have n2 := withExpiry_length_le_one t l2 hd2
  rcases h1 : withExpiry t l1 with _ | ⟨a, _ | ⟨a', r⟩⟩
  · rw [h1] at hp
    exact (List.perm_nil.1 hp.symm).symm
  · rw [h1] at hp
    exact List.singleton_perm.1 hp
  · rw [h1] at n1
    simp at n1

theorem intercalate_go_data (sep : String) (l : List String) (acc : String) :
    ∃ r, (String.intercalate.go acc sep l).data = acc.data ++ r := by
  induction l generalizing acc with
  | nil => exact ⟨[], by simp [String.intercalate.go]⟩
  | cons a l ih =>
    obtain ⟨r, hr⟩ := ih (acc ++ sep ++ a)
    refine ⟨sep.data ++ a.data ++ r, ?_⟩
    rw [String.intercalate.go, hr]
    simp [String.data_append]

/-- A joined non-empty list begins with the separator. -/
theorem Join_data_of_ne_nil (eMs : expiryMessages) (h : eMs ≠ []) :
    ∃ r, (expiryMessages.Join eMs "\n").data = '\n' :: r := by
  rw [Join_eq]
  cases eMs with
  | nil => exact absurd rfl h
  | cons m ms =>
    have hshape : ∃ b bs, List.replicate (m :: ms).length "" ++ (m :: ms).map (fun eM => eM.Message)
        = "" :: b :: bs := by
      cases ms with
      | nil => exact ⟨m.Message, [], rfl⟩
      | cons m' ms' =>
        exact ⟨"", List.replicate ms'.length "" ++ (m :: m' :: ms').map (fun eM => eM.Message),
          by simp [List.replicate_succ]⟩
    obtain ⟨b, bs, hb⟩ := hshape
    rw [hb]
    obtain ⟨r, hr⟩ := intercalate_go_data "\n" bs ("" ++ "\n" ++ b)
    refine ⟨b.data ++ r, ?_⟩
    show (String.intercalate.go ("" ++ "\n" ++ b) "\n" bs).data = _
    rw [hr]
    simp [String.data_append]


/-! ## Claims about `Sort` and `SummaryForUser` -/

/-- C13: `Sort` returns a permutation of its input, in non-decreasing order
of `Expiry`, and it is stable: for each expiry, the entries that carry it
stand in the output in the order they had in the input. -/
theorem C13_Sort_is_stable_sorted_permutation (eMs : expiryMessages) :
    (expiryMessages.Sort eMs).Perm eMs
      ∧ sortedByExpiry (expiryMessages.Sort eMs)
      ∧ ∀ t, withExpiry t (expiryMessages.Sort eMs) = withExpiry t eMs :=
  ⟨perm_Sort eMs, sortedByExpiry_Sort eMs, fun t => withExpiry_Sort t eMs⟩

/-- C14, as stated, fails: two failed hosts carry the same zero expiry, the
stable sort keeps them in the order in which they were appended, and the two
orders of appending give two different summaries. -/
theorem C14_two_failed_hosts_depend_on_order :
    [exFailedFirst, exFailedSecond].Perm [exFailedSecond, exFailedFirst]
      ∧ (expiryMessages.Sort [exFailedFirst, exFailedSecond]).Join "\n"
          = "\n\nNo such host.\nTimed out connecting b.example"
      ∧ (expiryMessages.Sort [exFailedSecond, exFailedFirst]).Join "\n"
          = "\n\nTimed out connecting b.example\nNo such host."
      ∧ (expiryMessages.Sort [exFailedFirst, exFailedSecond]).Join "\n"
          ≠ (expiryMessages.Sort [exFailedSecond, exFailedFirst]).Join "\n" := by
  refine ⟨List.Perm.swap _ _ _, ?_, ?_, ?_⟩ <;> decide

/-- C14, amended: for two orders of the same results in which the entries
of each expiry stand in the same relative order, `Sort` gives the same list
and `Sort` followed by `Join` the same string. -/
theorem C14_summary_independent_of_order_up_to_ties (l1 l2 : expiryMessages)
    (_hperm : l1.Perm l2) (hties : ∀ t, withExpiry t l1 = withExpiry t l2) :
    expiryMessages.Sort l1 = expiryMessages.Sort l2
      ∧ (expiryMessages.Sort l1).Join "\n" = (expiryMessages.Sort l2).Join "\n" := by
  have h : expiryMessages.Sort l1 = expiryMessages.Sort l2 := by
    apply eq_of_sorted_of_withExpiry _ _ (sortedByExpiry_Sort l1) (sortedByExpiry_Sort l2)
    intro t
    rw [withExpiry_Sort, withExpiry_Sort]
    exact hties t
  exact ⟨h, by rw [h]⟩

/-- C14, amended, at two orders of the results of hosts A, B and C, whose
expiries are distinct. -/
theorem C14_summary_independent_of_order_up_to_ties_witness :
    expiryMessages.Sort [exA, exB, exC] = expiryMessages.Sort [exC, exA, exB]
      ∧ (expiryMessages.Sort [exA, exB, exC]).Join "\n"
          = (expiryMessages.Sort [exC, exA, exB]).Join "\n" :=
  C14_summary_independent_of_order_up_to_ties [exA, exB, exC] [exC, exA, exB]
    ((List.Perm.cons exA (List.Perm.swap exC exB [])).trans (List.Perm.swap exC exA [exB]))
    (withExpiry_eq_of_perm_of_distinct _ _
      ((List.Perm.cons exA (List.Perm.swap exC exB [])).trans (List.Perm.swap exC exA [exB]))
      (by decide))

/-- C15: when the user's list is empty (or the user is not in the map) no
message is collected and `SummaryForUser` returns the fixed text, whatever the
dial would answer; when the list is not empty it returns the sorted messages
joined by newlines, which is not the fixed text. -/
theorem C15_summary_of_empty_list (dial : Dialer) (now : Time)
    (sched : List String → List String) (h : hosts) (userId : Int)
    (hsched : (sched (h.get userId)).Perm (h.get userId)) :
    (h.get userId = [] →
        collect dial now (sched (h.get userId)) = []
          ∧ SummaryForUser dial now sched h userId = "Nothing to show.")
      ∧ (h userId = none → SummaryForUser dial now sched h userId = "Nothing to show.")
      ∧ (h.get userId ≠ [] →
        SummaryForUser dial now sched h userId
            = (expiryMessages.Sort (collect dial now (sched (h.get userId)))).Join "\n"
          ∧ SummaryForUser dial now sched h userId ≠ "Nothing to show.") := by
  have hempty : h.get userId = [] →
      collect dial now (sched (h.get userId)) = []
        ∧ SummaryForUser dial now sched h userId = "Nothing to show." := by
    intro he
    rw [he] at hsched
    have hs : sched (h.get userId) = [] := by
      rw [he]
      exact List.perm_nil.1 hsched
    unfold SummaryForUser
    rw [hs]
    exact ⟨rfl, rfl⟩
  refine ⟨hempty, ?_, ?_⟩
  · intro hn
    exact (hempty (by simp [hosts.get, hn])).2
  · intro hne
    have hs : sched (h.get userId) ≠ [] := by
      intro e
      rw [e] at hsched
      exact hne (List.perm_nil.1 hsched.symm)
    have hc : collect dial now (sched (h.get userId)) ≠ [] := by
      unfold collect
      simpa using hs
    have hlen : ¬ (collect dial now (sched (h.get userId))).length = 0 := by
      rw [List.length_eq_zero]
      exact hc
    have hval : SummaryForUser dial now sched h userId
        = (expiryMessages.Sort (collect dial now (sched (h.get userId)))).Join "\n" := by
      unfold SummaryForUser
      simp only [hlen, if_false]
    refine ⟨hval, ?_⟩
    rw [hval]
    have hsort : expiryMessages.Sort (collect dial now (sched (h.get userId))) ≠ [] := by
      intro e
      have hp := perm_Sort (collect dial now (sched (h.get userId)))
      rw [e] at hp
      exact hc (List.perm_nil.1 hp.symm)
    obtain ⟨r, hr⟩ := Join_data_of_ne_nil _ hsort
    intro e
    rw [e] at hr
    revert hr
    rw [show "Nothing to show.".data = 'N' :: "othing to show.".data from rfl]
    intro hr
    have := (List.cons.inj hr).1
    revert this
    decide

/-- C15 at the empty registry and at a user with two hosts. -/
theorem C15_summary_of_empty_list_witness :
    SummaryForUser exDial exNow inOrder hosts.empty 1 = "Nothing to show."
      ∧ SummaryForUser exDial exNow inOrder (hosts.empty.set 1 ["a.example"]) 1
          ≠ "Nothing to show." :=
  ⟨((C15_summary_of_empty_list exDial exNow inOrder hosts.empty 1 (List.Perm.refl _)).1 rfl).2,
   ((C15_summary_of_empty_list exDial exNow inOrder (hosts.empty.set 1 ["a.example"]) 1
      (List.Perm.refl _)).2.2 (by decide)).2⟩

/-! ## Claims about the classification by `reply` and the frame of the registry -/

/-- C17: for an input other than `/start` and `/list`, `reply` answers with
the action `DELETE` exactly when the input begins with `/d` or `/r`; the
pattern matches exactly those texts; and the output is then the input without
the longest command spelling at its start and without the whitespace that
follows it. -/
theorem C17_delete_iff_begins_with_d_or_r (dial : Dialer) (now : Time) (input : String)
    (hstart : input ≠ "/start") (hlist : input ≠ "/list") :
    ((reply dial now input).2.2 = DELETE ↔ beginsWithCommandLetter input = true)
      ∧ delCmd.MatchString input = beginsWithCommandLetter input
      ∧ (beginsWithCommandLetter input = true →
          reply dial now input = (stripCommandSpec input, Time.zero, DELETE)) := by
  have hm := MatchString_eq_begins input
  have hdelete : beginsWithCommandLetter input = true →
      reply dial now input = (stripCommandSpec input, Time.zero, DELETE) := by
    intro hb
    obtain ⟨q, hq, hmatch⟩ := delCmd_matchAt_begins input hb
    unfold reply
    rw [if_neg hstart, if_neg hlist, if_pos (hm.trans hb),
      ReplaceAllString_of_matchAt _ _ _ hq hmatch]
  refine ⟨?_, hm, hdelete⟩
  constructor
  · intro ha
    by_contra hb
    have hdel : delCmd.MatchString input = false := by
      rw [hm]
      simpa using hb
    rcases check_cases dial input with ⟨expiry, hc⟩ | ⟨err, hc⟩
    · rw [reply_of_check_ok dial now input expiry hstart hlist hdel hc] at ha
      simp [CREATE, DELETE] at ha
    · rw [reply_of_check_error dial now input Time.zero err hstart hlist hdel hc] at ha
      simp [NOTHING, DELETE] at ha
  · intro hb
    rw [hdelete hb]

/-- C17 at the text `/dog.com`: a delete of `og.com`, with a dial that would
succeed; `/delete  x` loses the whole spelling and both blanks. -/
theorem C17_delete_iff_begins_with_d_or_r_witness :
    reply exDial exNow "/dog.com" = ("og.com", Time.zero, DELETE)
      ∧ reply exDial exNow "/delete  x" = ("x", Time.zero, DELETE) := by
  constructor
  · rw [(C17_delete_iff_begins_with_d_or_r exDial exNow "/dog.com" (by decide) (by decide)).2.2
      (by decide)]
    decide
  · rw [(C17_delete_iff_begins_with_d_or_r exDial exNow "/delete  x" (by decide)
      (by decide)).2.2 (by decide)]
    decide

/-- C18: `reply` answers with the action `CREATE` exactly when the input is
not `/start`, not `/list`, is not matched by the delete pattern and its check
returned no error; when the check of such an input fails, the expiry is zero
and the action `NOTHING`, and the goroutine of `main` leaves the state as it
was: nothing is added to the registry. -/
theorem C18_create_iff_check_succeeded (dial : Dialer) (now : Time) (input : String) :
    ((reply dial now input).2.2 = CREATE
        ↔ (input ≠ "/start" ∧ input ≠ "/list" ∧ delCmd.MatchString input = false
            ∧ (check dial input).2 = none))
      ∧ (∀ err, input ≠ "/start" → input ≠ "/list" → delCmd.MatchString input = false →
          (check dial input).2 = some err → (reply dial now input).2 = (Time.zero, NOTHING))
      ∧ (∀ (parse : UrlParser) (sched : List String → List String) (fresh : Ref)
          (loaded : hosts) (σ : State) (userId : Int) (text : String) (err : NetErr),
          sanitize parse text = input → input ≠ "/start" → input ≠ "/list" →
          delCmd.MatchString input = false → (check dial input).2 = some err →
          ∃ output, handle parse dial now sched fresh loaded σ userId text = some (σ, output)) := by
  have herr : ∀ err, input ≠ "/start" → input ≠ "/list" → delCmd.MatchString input = false →
      (check dial input).2 = some err →
      reply dial now input = (errorText input (ErrorKind.of err), Time.zero, NOTHING) := by
    intro err h1 h2 h3 h4
    exact reply_of_check_error dial now input (check dial input).1 err h1 h2 h3
      (Prod.ext rfl h4)
  refine ⟨?_, ?_, ?_⟩
  · constructor
    · intro ha
      by_cases h1 : input = "/start"
      · rw [h1] at ha
        revert ha
        simp [reply, NOTHING, CREATE]
      by_cases h2 : input = "/list"
      · rw [h2] at ha
        revert ha
        simp [reply, READ, CREATE]
      by_cases h3 : delCmd.MatchString input = true
      · unfold reply at ha
        rw [if_neg h1, if_neg h2, if_pos h3] at ha
        simp [CREATE, DELETE] at ha
      have h3' : delCmd.MatchString input = false := by simpa using h3
      refine ⟨h1, h2, h3', ?_⟩
      cases h4 : (check dial input).2 with
      | none => rfl
      | some err =>
        rw [herr err h1 h2 h3' h4] at ha
        simp [NOTHING, CREATE] at ha
    · rintro ⟨h1, h2, h3, h4⟩
      rw [reply_of_check_ok dial now input (check dial input).1 h1 h2 h3 (Prod.ext rfl h4)]
  · intro err h1 h2 h3 h4
    rw [herr err h1 h2 h3 h4]
  · intro parse sched fresh loaded σ userId text err hs h1 h2 h3 h4
    refine ⟨errorText input (ErrorKind.of err), ?_⟩
    unfold handle
    simp only [hs, herr err h1 h2 h3 h4]
    simp [NOTHING, CREATE, READ, DELETE]

/-- C19: `Add(u, host)` and `Remove(u, host)` leave the entry of every other
user `v` as it was, in every map of the state: the same list, or the same
absence of the key. -/
theorem C19_other_users_unchanged (σ : State) (h r : Ref) (u v : Int) (host : String)
    (hv : v ≠ u) :
    (Add σ h u host).heap r v = σ.heap r v
      ∧ ∃ σ', Remove σ h u host = some σ' ∧ σ'.heap r v = σ.heap r v := by
  constructor
  · unfold Add
    split
    · rfl
    · simp only [State.write]
      split
      · rename_i hr
        rw [hr]
        exact set_other _ _ _ _ hv
      · rfl
  · obtain ⟨m', hm', _, hk, _⟩ :=
      removeLoop_spec u host ((σ.heap h).get u).length (σ.heap h) (le_refl _)
    refine ⟨σ.write h m', by simp [Remove, hm'], ?_⟩
    simp only [State.write]
    split
    · rename_i hr
      rw [hr]
      exact hk v hv
    · rfl

/-- C19 at a registry with two users: adding or removing a host of user 1
leaves the list of user 2, and user 3 stays absent. -/
theorem C19_other_users_unchanged_witness :
    ((Add exTwoUsers 0 1 "z.example").heap 0 2 = exTwoUsers.heap 0 2
        ∧ ∃ σ', Remove exTwoUsers 0 1 "a.example" = some σ' ∧ σ'.heap 0 2 = exTwoUsers.heap 0 2)
      ∧ ((Add exTwoUsers 0 1 "z.example").heap 0 3 = exTwoUsers.heap 0 3
        ∧ ∃ σ', Remove exTwoUsers 0 1 "a.example" = some σ' ∧ σ'.heap 0 3 = exTwoUsers.heap 0 3)
      ∧ exTwoUsers.heap 0 2 = some ["c.example"] ∧ exTwoUsers.heap 0 3 = none :=
  ⟨⟨(C19_other_users_unchanged exTwoUsers 0 0 1 2 "z.example" (by decide)).1,
    (C19_other_users_unchanged exTwoUsers 0 0 1 2 "a.example" (by decide)).2⟩,
   ⟨(C19_other_users_unchanged exTwoUsers 0 0 1 3 "z.example" (by decide)).1,
    (C19_other_users_unchanged exTwoUsers 0 0 1 3 "a.example" (by decide)).2⟩,
   by decide, by decide⟩

end CGHCertBot
